import Mathlib

/-!
Verification development for the FastSLL repository: a singly linked list
with a predecessor index (prev map keyed by node identity) giving O(1)
get / insert_after / insert_before / remove through Position handles.

Shallow embedding conventions:
* Python node objects live in a heap, an association list from a natural
  number id to the node record.  A fresh counter allocates ids
  monotonically; this models CPython object identity for live objects
  (a Position holds a strong reference to its node, so the id of a node
  wrapped by a live Position is never reused by CPython).
* Field mutation (cur.next = new_node) becomes a read-modify-write on the
  heap entry.  The prev dictionary becomes an association list from id to
  Option id (none marks the head, as in the source).
* Operations that can raise ValueError (InvalidPosition) return
  Except Unit; validation happens first, exactly as in the source, so an
  error result carries no new state.
-/

namespace FastSLLSpec

/-- Association list lookup, modelling Python dict access on keys that are
object ids. Returns none when the key is absent. -/
def lookupA {α : Type} : List (Nat × α) → Nat → Option α
  | [], _ => none
  | (k, v) :: rest, j => if k = j then some v else lookupA rest j

/-- Association list set, modelling Python dict assignment: replaces the
first binding of the key or appends a new binding. -/
def setA {α : Type} : List (Nat × α) → Nat → α → List (Nat × α)
  | [], j, w => [(j, w)]
  | (k, v) :: rest, j, w =>
      if k = j then (j, w) :: rest else (k, v) :: setA rest j w

/-- Association list delete, modelling Python del d[k]: removes the first
binding of the key. -/
def eraseA {α : Type} : List (Nat × α) → Nat → List (Nat × α)
  | [], _ => []
  | (k, v) :: rest, j => if k = j then rest else (k, v) :: eraseA rest j

/-- The keys of an association list, in order. -/
def keysOf {α : Type} (l : List (Nat × α)) : List Nat := l.map Prod.fst

/-- Node from node.py: one element and an optional reference (here: heap id)
to the next node. -/
structure Node (T : Type) where
  data : T
  next : Option Nat
deriving DecidableEq

/-- Position from fast_sll.py: an immutable handle wrapping a reference to
a node; in the embedding it holds the node's heap id.  Python dataclass
equality compares the wrapped node by object identity, i.e. by id. -/
structure Position where
  node : Nat
deriving DecidableEq

/-- FastSLL state from fast_sll.py.  nodes and fresh are the embedding of
the Python object heap and the id() allocator; head, tail, prev and size
are the fields of the class. -/
structure FastSLL (T : Type) where
  nodes : List (Nat × Node T)
  head : Option Nat
  tail : Option Nat
  prev : List (Nat × Option Nat)
  size : Nat
  fresh : Nat
deriving DecidableEq

variable {T : Type}

/-- Heap dereference of a node id.  On every state reachable by the public
operations each id stored in the list structure has a heap entry, so the
default is never consulted there; it only keeps the function total. -/
def nodeGet [Inhabited T] (l : List (Nat × Node T)) (i : Nat) : Node T :=
  (lookupA l i).getD ⟨default, none⟩

/-- Heap dereference through a state. -/
def heapGet [Inhabited T] (s : FastSLL T) (i : Nat) : Node T :=
  nodeGet s.nodes i

namespace FastSLL

/-- The constructor: empty list, empty prev map, size 0. -/
def empty : FastSLL T := ⟨[], none, none, [], 0, 0⟩

/-- len from fast_sll.py. -/
def len (s : FastSLL T) : Nat := s.size

/-- is_empty from fast_sll.py. -/
def is_empty (s : FastSLL T) : Bool := s.size == 0

/-- first from fast_sll.py: wrap the head node if present. -/
def first (s : FastSLL T) : Option Position := s.head.map Position.mk

/-- last from fast_sll.py: wrap the tail node if present. -/
def last (s : FastSLL T) : Option Position := s.tail.map Position.mk

/-- value_iterator from fast_sll.py follows next from head until none.
The fuel argument (instantiated with size) only forces termination in
Lean; on invariant-satisfying states it is exactly the chain length. -/
def valuesAux [Inhabited T] (s : FastSLL T) : Nat → Option Nat → List T
  | 0, _ => []
  | _ + 1, none => []
  | fuel + 1, some i =>
      (heapGet s i).data :: valuesAux s fuel (heapGet s i).next

/-- The element sequence produced by value_iterator. -/
def values [Inhabited T] (s : FastSLL T) : List T :=
  valuesAux s s.size s.head

/-- The sequence of node ids visited by the same traversal. -/
def chainIdsAux [Inhabited T] (s : FastSLL T) : Nat → Option Nat → List Nat
  | 0, _ => []
  | _ + 1, none => []
  | fuel + 1, some i => i :: chainIdsAux s fuel (heapGet s i).next

/-- The node ids of the chain, head to tail. -/
def chainIds [Inhabited T] (s : FastSLL T) : List Nat :=
  chainIdsAux s s.size s.head

/-- _validate from fast_sll.py: a Position is valid exactly when its node's
id is a key of the prev map; otherwise ValueError (InvalidPosition). -/
def validate (s : FastSLL T) (pos : Position) : Except Unit Nat :=
  match lookupA s.prev pos.node with
  | none => .error ()
  | some _ => .ok pos.node

/-- get from fast_sll.py: validate, then return the node's data. -/
def get [Inhabited T] (s : FastSLL T) (pos : Position) : Except Unit T :=
  match validate s pos with
  | .error e => .error e
  | .ok n => .ok (heapGet s n).data

/-- next from fast_sll.py: validate, then wrap the node's next reference,
or none at the tail. -/
def next [Inhabited T] (s : FastSLL T) (pos : Position) :
    Except Unit (Option Position) :=
  match validate s pos with
  | .error e => .error e
  | .ok n => .ok ((heapGet s n).next.map Position.mk)

/-- append from fast_sll.py: allocate Node(value); if the list is empty it
becomes head and tail with predecessor none, else it is linked after the
current tail.  The branch where head is present but tail is absent is
unreachable (the source asserts tail is not None there). -/
def append [Inhabited T] (s : FastSLL T) (v : T) : Position × FastSLL T :=
  let n := s.fresh
  match s.head with
  | none =>
      (⟨n⟩, { s with
        nodes := setA s.nodes n ⟨v, none⟩
        head := some n
        tail := some n
        prev := setA s.prev n none
        size := s.size + 1
        fresh := n + 1 })
  | some _ =>
      match s.tail with
      | none => (⟨n⟩, s)
      | some t =>
          let tn := heapGet s t
          (⟨n⟩, { s with
            nodes := setA (setA s.nodes t { tn with next := some n }) n ⟨v, none⟩
            prev := setA s.prev n (some t)
            tail := some n
            size := s.size + 1
            fresh := n + 1 })

/-- prepend from fast_sll.py: allocate Node(value, next=head); if empty it
becomes head and tail, else the old head's predecessor entry is redirected
to the new node. -/
def prepend (s : FastSLL T) (v : T) : Position × FastSLL T :=
  let n := s.fresh
  let newNode : Node T := ⟨v, s.head⟩
  match s.head with
  | none =>
      (⟨n⟩, { s with
        nodes := setA s.nodes n newNode
        head := some n
        tail := some n
        prev := setA s.prev n none
        size := s.size + 1
        fresh := n + 1 })
  | some oldHead =>
      (⟨n⟩, { s with
        nodes := setA s.nodes n newNode
        head := some n
        prev := setA (setA s.prev n none) oldHead (some n)
        size := s.size + 1
        fresh := n + 1 })

/-- insert_after from fast_sll.py: validate, splice Node(value, next=cur.next)
after cur, set the new node's predecessor to cur; if a successor exists its
predecessor entry becomes the new node, else the new node becomes the tail. -/
def insert_after [Inhabited T] (s : FastSLL T) (pos : Position) (v : T) :
    Except Unit (Position × FastSLL T) :=
  match validate s pos with
  | .error e => .error e
  | .ok cur =>
      let n := s.fresh
      let curNode := heapGet s cur
      let newNode : Node T := ⟨v, curNode.next⟩
      let nodes2 := setA (setA s.nodes cur { curNode with next := some n }) n newNode
      match curNode.next with
      | some nx =>
          .ok (⟨n⟩, { s with
            nodes := nodes2
            prev := setA (setA s.prev n (some cur)) nx (some n)
            size := s.size + 1
            fresh := n + 1 })
      | none =>
          .ok (⟨n⟩, { s with
            nodes := nodes2
            prev := setA s.prev n (some cur)
            tail := some n
            size := s.size + 1
            fresh := n + 1 })

/-- insert_before from fast_sll.py: validate (the single lookup here plays
the roles of both the membership test and the subsequent prev[id(target)]
read, which return consistent results on a dict); when the predecessor is
none the target is the head and the source delegates to prepend, else
splice Node(value, next=target) between the predecessor and the target. -/
def insert_before [Inhabited T] (s : FastSLL T) (pos : Position) (v : T) :
    Except Unit (Position × FastSLL T) :=
  match lookupA s.prev pos.node with
  | none => .error ()
  | some none => .ok (prepend s v)
  | some (some pd) =>
      let n := s.fresh
      let target := pos.node
      let pdNode := heapGet s pd
      .ok (⟨n⟩, { s with
        nodes := setA (setA s.nodes pd { pdNode with next := some n }) n ⟨v, some target⟩
        prev := setA (setA s.prev n (some pd)) target (some n)
        size := s.size + 1
        fresh := n + 1 })

/-- remove from fast_sll.py: validate, look up predecessor, bypass the
target (head case and interior case), fix the successor's predecessor entry
or the tail, delete the target's prev entry, decrement size, null the
removed node's next, return its data. -/
def remove [Inhabited T] (s : FastSLL T) (pos : Position) :
    Except Unit (T × FastSLL T) :=
  match lookupA s.prev pos.node with
  | none => .error ()
  | some pred =>
      let target := pos.node
      let tNode := heapGet s target
      let nxt := tNode.next
      let s1 : FastSLL T :=
        match pred with
        | none =>
            match nxt with
            | some nx => { s with head := nxt, prev := setA s.prev nx none }
            | none => { s with head := none, tail := none }
        | some pd =>
            let pdNode := heapGet s pd
            let nodes1 := setA s.nodes pd { pdNode with next := nxt }
            match nxt with
            | some nx => { s with nodes := nodes1, prev := setA s.prev nx (some pd) }
            | none => { s with nodes := nodes1, tail := some pd }
      .ok (tNode.data, { s1 with
        prev := eraseA s1.prev target
        size := s1.size - 1
        nodes := setA s1.nodes target { tNode with next := none } })

/-- clear from fast_sll.py: reset head, tail, prev and size in O(1); the
heap and the id allocator are untouched (node objects may stay alive
through outside references). -/
def clear (s : FastSLL T) : FastSLL T :=
  { s with head := none, tail := none, prev := [], size := 0 }

end FastSLL

section SequenceDefs

open FastSLL

/-- A public operation of the ADT, with an arbitrary (possibly foreign or
stale) Position where one is required. -/
inductive Op (T : Type) where
  | appendOp (v : T)
  | prependOp (v : T)
  | insertAfterOp (pos : Position) (v : T)
  | insertBeforeOp (pos : Position) (v : T)
  | removeOp (pos : Position)
  | getOp (pos : Position)
  | nextOp (pos : Position)
  | clearOp
  | firstOp
  | lastOp

/-- The state after one public operation: a raised InvalidPosition leaves
the state as it was (the exception propagates before any mutation). -/
def run [Inhabited T] (s : FastSLL T) : Op T → FastSLL T
  | .appendOp v => (append s v).2
  | .prependOp v => (prepend s v).2
  | .insertAfterOp p v =>
      match insert_after s p v with
      | .ok r => r.2
      | .error _ => s
  | .insertBeforeOp p v =>
      match insert_before s p v with
      | .ok r => r.2
      | .error _ => s
  | .removeOp p =>
      match remove s p with
      | .ok r => r.2
      | .error _ => s
  | .getOp _ => s
  | .nextOp _ => s
  | .clearOp => clear s
  | .firstOp => s
  | .lastOp => s

/-- The state after a sequence of public operations. -/
def runList [Inhabited T] (s : FastSLL T) : List (Op T) → FastSLL T
  | [] => s
  | op :: rest => runList (run s op) rest

/-- An operation of the randomized stress test of test_fast_sll.py,
addressed by logical index into the reference model, as the test does
through its ref_pos array. -/
inductive MOp (T : Type) where
  | appendOp (x : T)
  | prependOp (x : T)
  | insertAfterOp (k : Nat) (x : T)
  | insertBeforeOp (k : Nat) (x : T)
  | removeOp (k : Nat)
  | getOp (k : Nat)

/-- The Position of the node at logical index k (what the stress test
keeps in ref_pos[k]). -/
def posAt [Inhabited T] (s : FastSLL T) (k : Nat) : Option Position :=
  ((chainIds s).get? k).map Position.mk

/-- One step of the stress test on the FastSLL side: index operations are
skipped when the index is out of range, exactly as the test skips actions
on an empty model; remove and get report the value they return. -/
def runM [Inhabited T] (s : FastSLL T) : MOp T → FastSLL T × Option T
  | .appendOp x => ((append s x).2, none)
  | .prependOp x => ((prepend s x).2, none)
  | .insertAfterOp k x =>
      match posAt s k with
      | none => (s, none)
      | some p =>
          match insert_after s p x with
          | .ok r => (r.2, none)
          | .error _ => (s, none)
  | .insertBeforeOp k x =>
      match posAt s k with
      | none => (s, none)
      | some p =>
          match insert_before s p x with
          | .ok r => (r.2, none)
          | .error _ => (s, none)
  | .removeOp k =>
      match posAt s k with
      | none => (s, none)
      | some p =>
          match remove s p with
          | .ok r => (r.2, some r.1)
          | .error _ => (s, none)
  | .getOp k =>
      match posAt s k with
      | none => (s, none)
      | some p =>
          match get s p with
          | .ok v => (s, some v)
          | .error _ => (s, none)

/-- The stress test on the FastSLL side, collecting the reported values. -/
def runMList [Inhabited T] (s : FastSLL T) :
    List (MOp T) → FastSLL T × List (Option T)
  | [] => (s, [])
  | op :: rest =>
      let r := runM s op
      let r2 := runMList r.1 rest
      (r2.1, r.2 :: r2.2)

/-- Insertion at an index into the array-backed reference model
(ref_vals.insert of the test, for an in-range index). -/
def refInsert (m : List T) (k : Nat) (x : T) : List T :=
  m.take k ++ x :: m.drop k

/-- Removal at an index from the reference model (ref_vals.pop). -/
def refRemove (m : List T) (k : Nat) : List T :=
  m.take k ++ m.drop (k + 1)

/-- One step of the stress test on the reference-model side, mirroring
test_6_stress_random_ops: appends and prepends always apply, indexed
actions apply only when the index is in range; remove reports the popped
element and get reports the element at the index. -/
def refRunM (m : List T) : MOp T → List T × Option T
  | .appendOp x => (m ++ [x], none)
  | .prependOp x => (x :: m, none)
  | .insertAfterOp k x =>
      if k < m.length then (refInsert m (k + 1) x, none) else (m, none)
  | .insertBeforeOp k x =>
      if k < m.length then (refInsert m k x, none) else (m, none)
  | .removeOp k =>
      if k < m.length then (refRemove m k, m.get? k) else (m, none)
  | .getOp k =>
      if k < m.length then (m, m.get? k) else (m, none)

/-- The stress test on the reference-model side. -/
def refRunMList (m : List T) : List (MOp T) → List T × List (Option T)
  | [] => (m, [])
  | op :: rest =>
      let r := refRunM m op
      let r2 := refRunMList r.1 rest
      (r2.1, r.2 :: r2.2)

end SequenceDefs

section CostDefs

open FastSLL

/-- Number of prev-dict operations (membership tests, reads, writes and
deletes, as counted by CountingDict in prove_o1_evidence.py) performed by
one call to get: the single membership test of _validate. -/
def getIndexOps (s : FastSLL T) (pos : Position) : Nat := 1

/-- prev-dict operations of one insert_after call: the membership test of
_validate, the write of the new node's entry, and, when a successor
exists, the rewrite of the successor's entry. -/
def insertAfterIndexOps [Inhabited T] (s : FastSLL T) (pos : Position) : Nat :=
  match lookupA s.prev pos.node with
  | none => 1
  | some _ =>
      2 + (match (heapGet s pos.node).next with
        | some _ => 1
        | none => 0)

/-- prev-dict operations of one prepend call: the write of the new entry
and, on a non-empty list, the rewrite of the old head's entry. -/
def prependIndexOps (s : FastSLL T) : Nat :=
  match s.head with
  | none => 1
  | some _ => 2

/-- prev-dict operations of one insert_before call: the membership test,
the predecessor read, then either the delegated prepend or the two entry
writes of the splice. -/
def insertBeforeIndexOps (s : FastSLL T) (pos : Position) : Nat :=
  match lookupA s.prev pos.node with
  | none => 1
  | some none => 2 + prependIndexOps s
  | some (some _) => 2 + 2

/-- prev-dict operations of one remove call: the membership test, the
predecessor read, the successor rewrite when a successor exists, and the
deletion of the target's entry. -/
def removeIndexOps [Inhabited T] (s : FastSLL T) (pos : Position) : Nat :=
  match lookupA s.prev pos.node with
  | none => 1
  | some _ =>
      2 + (match (heapGet s pos.node).next with
        | some _ => 1
        | none => 0) + 1

/-- Number of nodes dereferenced or written by one get call. -/
def getNodeTouches (s : FastSLL T) (pos : Position) : Nat := 1

/-- Nodes touched by one insert_after call: the target (read and relinked)
and the freshly allocated node. -/
def insertAfterNodeTouches (s : FastSLL T) (pos : Position) : Nat :=
  match lookupA s.prev pos.node with
  | none => 0
  | some _ => 2

/-- Nodes touched by one insert_before call: at most the predecessor
(relinked) and the freshly allocated node. -/
def insertBeforeNodeTouches (s : FastSLL T) (pos : Position) : Nat :=
  match lookupA s.prev pos.node with
  | none => 0
  | some none => 1
  | some (some _) => 2

/-- Nodes touched by one remove call: the target (read and detached) and,
when present, the predecessor (relinked). -/
def removeNodeTouches (s : FastSLL T) (pos : Position) : Nat :=
  match lookupA s.prev pos.node with
  | none => 0
  | some none => 1
  | some (some _) => 2

end CostDefs

section RepDef

open FastSLL

variable [Inhabited T]

instance decOptionBAll (p : Nat → Prop) [DecidablePred p] :
    (o : Option Nat) → Decidable (∀ a ∈ o, p a)
  | none => isTrue (by simp)
  | some a => decidable_of_iff (p a) (by simp)

/-- Rep s ids states that ids is the sequence of node ids of the chain from
head to tail and that the five global invariants of the spec hold:
invariant 1 (hhead, hchain, hlast, htail, hsize: following next from head
visits exactly the size-many ids ending at tail, whose next is none),
invariant 2 (hphead, hpchain: the predecessor index maps each reachable
node to its chain predecessor, none for the head), invariant 3 (hsize,
hplen: size equals the number of index entries and of reachable nodes),
invariant 4 follows with ids = [], and invariant 5 (hnodup: the chain is
acyclic and simple).  hkeys, hknd and hfresh record that the index holds
exactly the reachable nodes, without duplicate keys, and that every key
was allocated below the fresh counter. -/
structure Rep (s : FastSLL T) (ids : List Nat) : Prop where
  hhead : s.head = ids.head?
  hchain : List.Chain' (fun a b => (heapGet s a).next = some b) ids
  hlast : ∀ t ∈ ids.getLast?, (heapGet s t).next = none
  hphead : ∀ a ∈ ids.head?, lookupA s.prev a = some none
  hpchain : List.Chain' (fun a b => lookupA s.prev b = some (some a)) ids
  htail : s.tail = ids.getLast?
  hsize : s.size = ids.length
  hnodup : ids.Nodup
  hkeys : ∀ j ∈ keysOf s.prev, j ∈ ids
  hknd : (keysOf s.prev).Nodup
  hplen : s.prev.length = ids.length
  hfresh : ∀ j ∈ keysOf s.prev, j < s.fresh

/-- The list satisfies the five global invariants of the spec. -/
def InvariantHolds (s : FastSLL T) : Prop := ∃ ids, Rep s ids

end RepDef

section AssocLemmas

variable {α : Type}

theorem lookupA_nil (j : Nat) : lookupA ([] : List (Nat × α)) j = none := rfl

theorem lookupA_setA_self (l : List (Nat × α)) (k : Nat) (v : α) :
    lookupA (setA l k v) k = some v := by
  induction l with
  | nil => simp [setA, lookupA]
  | cons hd tl ih =>
    obtain ⟨k', v'⟩ := hd
    by_cases hk : k' = k
    · simp [setA, hk, lookupA]
    · simp [setA, hk, lookupA, ih]

theorem lookupA_setA_ne (l : List (Nat × α)) (k : Nat) (v : α) (j : Nat)
    (h : j ≠ k) : lookupA (setA l k v) j = lookupA l j := by
  induction l with
  | nil => simp [setA, lookupA, Ne.symm h]
  | cons hd tl ih =>
    obtain ⟨k', v'⟩ := hd
    by_cases hk : k' = k
    · subst hk
      simp [setA, lookupA, Ne.symm h]
    · by_cases hj : k' = j
      · subst hj
        simp [setA, hk, lookupA]
      · simp [setA, hk, lookupA, hj, ih]

theorem lookupA_eraseA_ne (l : List (Nat × α)) (k : Nat) (j : Nat)
    (h : j ≠ k) : lookupA (eraseA l k) j = lookupA l j := by
  induction l with
  | nil => simp [eraseA]
  | cons hd tl ih =>
    obtain ⟨k', v'⟩ := hd
    by_cases hk : k' = k
    · subst hk
      simp [eraseA, lookupA, Ne.symm h]
    · by_cases hj : k' = j
      · subst hj
        simp [eraseA, hk, lookupA]
      · simp [eraseA, hk, lookupA, hj, ih]

theorem mem_keysOf_iff (l : List (Nat × α)) (k : Nat) :
    k ∈ keysOf l ↔ lookupA l k ≠ none := by
  induction l with
  | nil => simp [keysOf, lookupA]
  | cons hd tl ih =>
    obtain ⟨k', v'⟩ := hd
    by_cases hk : k' = k
    · simp [keysOf, lookupA, hk]
    · simpa [keysOf, lookupA, hk, Ne.symm hk] using ih

theorem lookupA_eraseA_self (l : List (Nat × α)) (k : Nat)
    (hnd : (keysOf l).Nodup) : lookupA (eraseA l k) k = none := by
  induction l with
  | nil => simp [eraseA, lookupA]
  | cons hd tl ih =>
    obtain ⟨k', v'⟩ := hd
    simp only [keysOf, List.map_cons, List.nodup_cons] at hnd
    by_cases hk : k' = k
    · subst hk
      have : k' ∉ keysOf tl := hnd.1
      rw [mem_keysOf_iff] at this
      simpa [eraseA] using not_not.mp (fun hc => this hc)
    · simp [eraseA, hk, lookupA, ih hnd.2]

theorem keysOf_setA_of_mem (l : List (Nat × α)) (k : Nat) (v : α)
    (h : k ∈ keysOf l) : keysOf (setA l k v) = keysOf l := by
  induction l with
  | nil => simp [keysOf] at h
  | cons hd tl ih =>
    obtain ⟨k', v'⟩ := hd
    by_cases hk : k' = k
    · simp [setA, hk, keysOf]
    · simp only [keysOf, List.map_cons, List.mem_cons] at h
      rcases h with h | h



      · exact absurd h.symm hk
      · have hih := ih h
        simp only [keysOf] at hih
        simp [setA, hk, keysOf, hih]

theorem keysOf_setA_of_not_mem (l : List (Nat × α)) (k : Nat) (v : α)
    (h : k ∉ keysOf l) : keysOf (setA l k v) = keysOf l ++ [k] := by
  induction l with
  | nil => simp [setA, keysOf]
  | cons hd tl ih =>
    obtain ⟨k', v'⟩ := hd
    simp only [keysOf, List.map_cons, List.mem_cons, not_or] at h
    have hih := ih (by simpa [keysOf] using h.2)
    simp only [keysOf] at hih
    simp [setA, Ne.symm h.1, keysOf, hih]

theorem length_setA_of_mem (l : List (Nat × α)) (k : Nat) (v : α)
    (h : k ∈ keysOf l) : (setA l k v).length = l.length := by
  have := keysOf_setA_of_mem l k v h
  have h1 : (keysOf (setA l k v)).length = (keysOf l).length := by rw [this]
  simpa [keysOf] using h1

theorem length_setA_of_not_mem (l : List (Nat × α)) (k : Nat) (v : α)
    (h : k ∉ keysOf l) : (setA l k v).length = l.length + 1 := by
  have := keysOf_setA_of_not_mem l k v h
  have h1 : (keysOf (setA l k v)).length = (keysOf l).length + 1 := by
    rw [this]; simp
  simpa [keysOf] using h1

theorem keysOf_eraseA_sublist (l : List (Nat × α)) (k : Nat) :
    (keysOf (eraseA l k)).Sublist (keysOf l) := by
  induction l with
  | nil => simp [eraseA]
  | cons hd tl ih =>
    obtain ⟨k', v'⟩ := hd
    by_cases hk : k' = k
    · simp only [eraseA, hk, if_true, keysOf, List.map_cons]
      exact List.sublist_cons_self _ _
    · simpa [eraseA, hk, keysOf] using ih.cons₂ k'

theorem keysOf_eraseA_of_mem (l : List (Nat × α)) (k : Nat)
    (hnd : (keysOf l).Nodup) (h : k ∈ keysOf l) :
    (keysOf (eraseA l k)).length + 1 = (keysOf l).length := by
  induction l with
  | nil => simp [keysOf] at h
  | cons hd tl ih =>
    obtain ⟨k', v'⟩ := hd
    simp only [keysOf, List.map_cons, List.nodup_cons] at hnd
    by_cases hk : k' = k
    · simp [eraseA, hk, keysOf]
    · simp only [keysOf, List.map_cons, List.mem_cons] at h
      rcases h with h | h
      · exact absurd h.symm hk
      · have hih := ih hnd.2 h
        simp only [eraseA, hk, if_false, keysOf, List.map_cons, List.length_cons]
        simp only [keysOf] at hih
        omega


theorem length_eraseA_of_mem (l : List (Nat × α)) (k : Nat)
    (hnd : (keysOf l).Nodup) (h : k ∈ keysOf l) :
    (eraseA l k).length + 1 = l.length := by
  have := keysOf_eraseA_of_mem l k hnd h
  simpa [keysOf] using this

theorem mem_keysOf_eraseA (l : List (Nat × α)) (k j : Nat)
    (h : j ∈ keysOf (eraseA l k)) : j ∈ keysOf l :=
  (keysOf_eraseA_sublist l k).mem h

theorem mem_keysOf_eraseA_iff (l : List (Nat × α)) (k j : Nat)
    (hnd : (keysOf l).Nodup) :
    j ∈ keysOf (eraseA l k) ↔ j ∈ keysOf l ∧ j ≠ k := by
  constructor
  · intro hj
    have hjk : j ≠ k := by
      intro hc
      subst hc
      have h1 := (mem_keysOf_iff _ _).mp hj
      exact h1 (lookupA_eraseA_self l j hnd)
    exact ⟨mem_keysOf_eraseA l k j hj, hjk⟩
  · rintro ⟨hj, hjk⟩
    rw [mem_keysOf_iff, lookupA_eraseA_ne l k j hjk]
    exact (mem_keysOf_iff _ _).mp hj

end AssocLemmas

section Representation

open FastSLL

variable [Inhabited T]

/-- On a represented state, the prev entry of a chain node is exactly its
chain predecessor: none for the head, the last element of the prefix
otherwise. -/
theorem rep_lookup_pred {s : FastSLL T} {pre post : List Nat} {t : Nat}
    (h : Rep s (pre ++ t :: post)) :
    lookupA s.prev t = some pre.getLast? := by
  rcases List.eq_nil_or_concat pre with hpre | ⟨pre0, a, rfl⟩
  · subst hpre
    have := h.hphead t (by simp)
    simpa using this
  · have hsplit := List.chain'_append.mp h.hpchain
    have := hsplit.2.2 a (by simp) t (by simp)
    simpa using this

/-- On a represented state, the next pointer of a chain node is the head of
the suffix: the following chain node, or none at the tail. -/
theorem rep_next_at {s : FastSLL T} {pre post : List Nat} {t : Nat}
    (h : Rep s (pre ++ t :: post)) :
    (heapGet s t).next = post.head? := by
  cases post with
  | nil =>
    have := h.hlast t (by simp)
    simpa using this
  | cons b post2 =>
    have hsplit := List.chain'_append.mp
      (show List.Chain' _ ((pre ++ [t]) ++ b :: post2) by
        simpa using h.hchain)
    have := hsplit.2.2 t (by simp) b (by simp)
    simpa using this

/-- Every chain node is a key of the predecessor index. -/
theorem rep_mem_lookup {s : FastSLL T} {ids : List Nat} (h : Rep s ids)
    {i : Nat} (hi : i ∈ ids) : lookupA s.prev i ≠ none := by
  obtain ⟨pre, post, rfl⟩ := List.append_of_mem hi
  rw [rep_lookup_pred h]
  simp

/-- Every chain node id was allocated below the fresh counter. -/
theorem rep_mem_lt_fresh {s : FastSLL T} {ids : List Nat} (h : Rep s ids)
    {i : Nat} (hi : i ∈ ids) : i < s.fresh :=
  h.hfresh i ((mem_keysOf_iff _ _).mpr (rep_mem_lookup h hi))

/-- The fresh counter is not a chain node id. -/
theorem rep_fresh_not_mem {s : FastSLL T} {ids : List Nat} (h : Rep s ids) :
    s.fresh ∉ ids := fun hc => lt_irrefl _ (rep_mem_lt_fresh h hc)

theorem valuesAux_chain {s : FastSLL T} (ids : List Nat)
    (hc : List.Chain' (fun a b => (heapGet s a).next = some b) ids) :
    valuesAux s ids.length ids.head? = ids.map (fun i => (heapGet s i).data) := by
  induction ids with
  | nil => simp [valuesAux]
  | cons i rest ih =>
    cases rest with
    | nil => simp [valuesAux]
    | cons j rest2 =>
      have hadj : (heapGet s i).next = some j := (List.chain'_cons.mp hc).1
      have htl : List.Chain' _ (j :: rest2) := (List.chain'_cons.mp hc).2
      simp only [List.head?, List.length_cons, valuesAux, hadj, List.map_cons]
      exact congrArg _ (ih htl)

/-- On a represented state, value_iterator yields the data of the chain
nodes in order. -/
theorem rep_values {s : FastSLL T} {ids : List Nat} (h : Rep s ids) :
    values s = ids.map (fun i => (heapGet s i).data) := by
  have := valuesAux_chain ids h.hchain
  rw [values, h.hsize, h.hhead]
  exact this

theorem chainIdsAux_chain {s : FastSLL T} (ids : List Nat)
    (hc : List.Chain' (fun a b => (heapGet s a).next = some b) ids) :
    chainIdsAux s ids.length ids.head? = ids := by
  induction ids with
  | nil => simp [chainIdsAux]
  | cons i rest ih =>
    cases rest with
    | nil => simp [chainIdsAux]
    | cons j rest2 =>
      have hadj : (heapGet s i).next = some j := (List.chain'_cons.mp hc).1
      have htl : List.Chain' _ (j :: rest2) := (List.chain'_cons.mp hc).2
      simp only [List.head?, List.length_cons, chainIdsAux, hadj]
      exact congrArg _ (ih htl)

/-- On a represented state, the id traversal recovers ids. -/
theorem rep_chainIds {s : FastSLL T} {ids : List Nat} (h : Rep s ids) :
    chainIds s = ids := by
  have := chainIdsAux_chain ids h.hchain
  rw [chainIds, h.hsize, h.hhead]
  exact this

end Representation

section Congruence

open FastSLL

variable [Inhabited T]

theorem nodeGet_setA_self (l : List (Nat × Node T)) (k : Nat) (nd : Node T) :
    nodeGet (setA l k nd) k = nd := by
  simp [nodeGet, lookupA_setA_self]

theorem nodeGet_setA_ne (l : List (Nat × Node T)) (k : Nat) (nd : Node T)
    (j : Nat) (h : j ≠ k) : nodeGet (setA l k nd) j = nodeGet l j := by
  simp [nodeGet, lookupA_setA_ne _ _ _ _ h]

/-- A chain transported along a relation implication restricted to members. -/
theorem chain'_congr_mem {R S : Nat → Nat → Prop} :
    ∀ {l : List Nat}, List.Chain' R l →
      (∀ a ∈ l, ∀ b ∈ l, R a b → S a b) → List.Chain' S l := by
  intro l
  induction l with
  | nil => intro _ _; simp
  | cons a tl ih =>
    intro hc hab
    rw [List.chain'_cons'] at hc ⊢
    refine ⟨?_, ih hc.2 ?_⟩
    · intro y hy
      exact hab a (by simp) y (List.mem_cons_of_mem a (List.mem_of_mem_head? hy))
        (hc.1 y hy)
    · intro x hx z hz hr
      exact hab x (List.mem_cons_of_mem a hx) z (List.mem_cons_of_mem a hz) hr

/-- The next-pointer chain survives a heap change that agrees on every node
except possibly the final one, whose outgoing edge the chain never uses. -/
theorem chain'_next_congr {s s' : FastSLL T} :
    ∀ {l : List Nat}, List.Chain' (fun a b => (heapGet s a).next = some b) l →
      (∀ a ∈ l.dropLast, (heapGet s' a).next = (heapGet s a).next) →
      List.Chain' (fun a b => (heapGet s' a).next = some b) l := by
  intro l
  induction l with
  | nil => intro _ _; simp
  | cons a tl ih =>
    intro hc hagree
    cases tl with
    | nil => simp
    | cons b tl2 =>
      rw [List.chain'_cons] at hc ⊢
      refine ⟨?_, ih hc.2 ?_⟩
      · rw [hagree a (by simp)]
        exact hc.1
      · intro x hx
        refine hagree x ?_
        simp only [List.dropLast_cons₂, List.mem_cons]
        exact Or.inr hx

end Congruence

section Transport

open FastSLL

variable [Inhabited T]

/-- Transport of the representation along append: the new node gets the
fresh id, the chain is extended at the back, the data of old nodes is
unchanged and the new node holds v. -/
theorem rep_append {s : FastSLL T} {ids : List Nat} (h : Rep s ids) (v : T) :
    (append s v).1 = ⟨s.fresh⟩ ∧
    Rep (append s v).2 (ids ++ [s.fresh]) ∧
    (append s v).2.fresh = s.fresh + 1 ∧
    (∀ i ∈ ids, (heapGet (append s v).2 i).data = (heapGet s i).data) ∧
    (heapGet (append s v).2 s.fresh).data = v := by
  rcases ids with _ | ⟨i, rest⟩
  · have hh : s.head = none := by simpa using h.hhead
    have hp : s.prev = [] := List.eq_nil_of_length_eq_zero (by simpa using h.hplen)
    have hsz : s.size = 0 := by simpa using h.hsize
    refine ⟨by simp [append, hh], ?_, by simp [append, hh], by simp, ?_⟩
    · constructor <;>
        simp [append, hh, hp, hsz, heapGet, nodeGet_setA_self, lookupA, setA,
          keysOf, List.chain'_singleton]
    · simp [append, hh, heapGet, nodeGet_setA_self]
  · have hne : (i :: rest) ≠ [] := by simp
    have hh : s.head = some i := by simpa using h.hhead
    have ht : s.tail = some ((i :: rest).getLast hne) := by
      rw [h.htail]
      exact List.getLast?_eq_getLast _ hne
    set ids := i :: rest with hids
    set t := ids.getLast hne with hdeft
    set n := s.fresh with hdefn
    have htmem : t ∈ ids := List.getLast_mem hne
    have htlt : t < n := rep_mem_lt_fresh h htmem
    have hmemlt : ∀ j ∈ ids, j < n := fun j hj => rep_mem_lt_fresh h hj
    have hnknot : n ∉ keysOf s.prev := fun hc => lt_irrefl n (h.hfresh n hc)
    have happ : append s v = (⟨n⟩, { s with
        nodes := setA (setA s.nodes t { heapGet s t with next := some n }) n ⟨v, none⟩
        prev := setA s.prev n (some t)
        tail := some n
        size := s.size + 1
        fresh := n + 1 }) := by
      rw [append, hh, ht]
    set s' : FastSLL T := { s with
        nodes := setA (setA s.nodes t { heapGet s t with next := some n }) n ⟨v, none⟩
        prev := setA s.prev n (some t)
        tail := some n
        size := s.size + 1
        fresh := n + 1 } with hdefs
    have hdata : ∀ j ∈ ids, (heapGet s' j).data = (heapGet s j).data := by
      intro j hj
      have hjn : j ≠ n := Nat.ne_of_lt (hmemlt j hj)
      by_cases hjt : j = t
      · subst hjt
        simp [hdefs, heapGet, nodeGet_setA_ne _ _ _ _ hjn, nodeGet_setA_self]
      · simp [hdefs, heapGet, nodeGet_setA_ne _ _ _ _ hjn,
          nodeGet_setA_ne _ _ _ _ hjt]
    have hnextkeep : ∀ j ∈ ids, j ≠ t → (heapGet s' j).next = (heapGet s j).next := by
      intro j hj hjt
      have hjn : j ≠ n := Nat.ne_of_lt (hmemlt j hj)
      simp [hdefs, heapGet, nodeGet_setA_ne _ _ _ _ hjn,
        nodeGet_setA_ne _ _ _ _ hjt]
    have hnextt : (heapGet s' t).next = some n := by
      have htn : t ≠ n := Nat.ne_of_lt htlt
      simp [hdefs, heapGet, nodeGet_setA_ne _ _ _ _ htn, nodeGet_setA_self]
    have hnextn : (heapGet s' n).next = none := by
      simp [hdefs, heapGet, nodeGet_setA_self]
    have hprevkeep : ∀ j, j ≠ n → lookupA s'.prev j = lookupA s.prev j := by
      intro j hjn
      simp [hdefs, lookupA_setA_ne _ _ _ _ hjn]
    have hdrop : ids.dropLast ++ [t] = ids := List.dropLast_append_getLast hne
    have hdropsub : ∀ a ∈ ids.dropLast, a ∈ ids := by
      intro a ha
      rw [← hdrop]
      exact List.mem_append_left _ ha
    have hdropne : ∀ a ∈ ids.dropLast, a ≠ t := by
      intro a ha hc
      have hnd := h.hnodup
      rw [← hdrop] at hnd
      rcases List.nodup_append.mp hnd with ⟨_, _, hdisj⟩
      exact hdisj ha (by simp [hc])
    refine ⟨by rw [happ], ?_, by rw [happ], ?_, ?_⟩
    · rw [happ]
      constructor
      · show s.head = (ids ++ [n]).head?
        rw [hh, hids]
        simp
      · show List.Chain' (fun a b => (heapGet s' a).next = some b) (ids ++ [n])
        rw [List.chain'_append]
        refine ⟨?_, by simp, ?_⟩
        · refine chain'_next_congr h.hchain ?_
          intro a ha
          exact hnextkeep a (hdropsub a ha) (hdropne a ha)
        · intro x hx y hy
          have hxt : t = x := by
            rw [List.getLast?_eq_getLast _ hne] at hx
            simpa using hx
          have hyn : n = y := by simpa using hy
          rw [← hxt, ← hyn]
          exact hnextt
      · show ∀ a ∈ (ids ++ [n]).getLast?, (heapGet s' a).next = none
        intro a ha
        have hthis : n = a := by simpa using ha
        rw [← hthis]
        exact hnextn
      · show ∀ a ∈ (ids ++ [n]).head?, lookupA s'.prev a = some none
        intro a ha
        have hai : i = a := by
          rw [hids] at ha
          simpa using ha
        have hin : i ≠ n := Nat.ne_of_lt (hmemlt i (by simp [hids]))
        rw [← hai, hprevkeep i hin]
        exact h.hphead i (by simp [hids])
      · show List.Chain' (fun a b => lookupA s'.prev b = some (some a)) (ids ++ [n])
        rw [List.chain'_append]
        refine ⟨?_, by simp, ?_⟩
        · refine chain'_congr_mem h.hpchain ?_
          intro a _ b hb hr
          rw [hprevkeep b (Nat.ne_of_lt (hmemlt b hb))]
          exact hr
        · intro x hx y hy
          have hxt : t = x := by
            rw [List.getLast?_eq_getLast _ hne] at hx
            simpa using hx
          have hyn : n = y := by simpa using hy
          rw [← hxt, ← hyn]
          simp [hdefs, lookupA_setA_self]
      · show s'.tail = (ids ++ [n]).getLast?
        simp [hdefs]
      · show s'.size = (ids ++ [n]).length
        have := h.hsize
        simp [hdefs, this]
      · show (ids ++ [n]).Nodup
        rw [List.nodup_append]
        refine ⟨h.hnodup, by simp, ?_⟩
        intro a ha hb
        have : a = n := by simpa using hb
        exact Nat.ne_of_lt (hmemlt a ha) this
      · show ∀ j ∈ keysOf s'.prev, j ∈ ids ++ [n]
        intro j hj
        have hk : keysOf s'.prev = keysOf s.prev ++ [n] := by
          simp [hdefs]
          exact keysOf_setA_of_not_mem _ _ _ hnknot
        rw [hk] at hj
        rcases List.mem_append.mp hj with hj | hj
        · exact List.mem_append_left _ (h.hkeys j hj)
        · exact List.mem_append_right _ hj
      · show (keysOf s'.prev).Nodup
        have hk : keysOf s'.prev = keysOf s.prev ++ [n] := by
          simp [hdefs]
          exact keysOf_setA_of_not_mem _ _ _ hnknot
        rw [hk, List.nodup_append]
        refine ⟨h.hknd, by simp, ?_⟩
        intro a ha hb
        have : a = n := by simpa using hb
        exact Nat.ne_of_lt (h.hfresh a ha) this
      · show s'.prev.length = (ids ++ [n]).length
        have hlen := length_setA_of_not_mem s.prev n (some t) hnknot
        have := h.hplen
        simp [hdefs, hlen, this]
      · show ∀ j ∈ keysOf s'.prev, j < s'.fresh
        intro j hj
        have hk : keysOf s'.prev = keysOf s.prev ++ [n] := by
          simp [hdefs]
          exact keysOf_setA_of_not_mem _ _ _ hnknot
        rw [hk] at hj
        rcases List.mem_append.mp hj with hj | hj
        · have := h.hfresh j hj
          have hfr : s'.fresh = n + 1 := by simp [hdefs]
          omega
        · have : j = n := by simpa using hj
          have hfr : s'.fresh = n + 1 := by simp [hdefs]
          omega
    · intro j hj
      rw [happ]
      exact hdata j hj
    · rw [happ]
      simp [heapGet, nodeGet_setA_self]

/-- Transport of the representation along prepend: the new node gets the
fresh id and becomes the new head of the chain. -/
theorem rep_prepend {s : FastSLL T} {ids : List Nat} (h : Rep s ids) (v : T) :
    (prepend s v).1 = ⟨s.fresh⟩ ∧
    Rep (prepend s v).2 (s.fresh :: ids) ∧
    (prepend s v).2.fresh = s.fresh + 1 ∧
    (∀ i ∈ ids, (heapGet (prepend s v).2 i).data = (heapGet s i).data) ∧
    (heapGet (prepend s v).2 s.fresh).data = v := by
  rcases ids with _ | ⟨i, rest⟩
  · have hh : s.head = none := by simpa using h.hhead
    have hp : s.prev = [] := List.eq_nil_of_length_eq_zero (by simpa using h.hplen)
    have hsz : s.size = 0 := by simpa using h.hsize
    refine ⟨by simp [prepend, hh], ?_, by simp [prepend, hh], by simp, ?_⟩
    · constructor <;>
        simp [prepend, hh, hp, hsz, heapGet, nodeGet_setA_self, lookupA, setA,
          keysOf, List.chain'_singleton]
    · simp [prepend, hh, heapGet, nodeGet_setA_self]
  · have hne : (i :: rest) ≠ [] := by simp
    have hh : s.head = some i := by simpa using h.hhead
    set ids := i :: rest with hids
    set n := s.fresh with hdefn
    have hmemlt : ∀ j ∈ ids, j < n := fun j hj => rep_mem_lt_fresh h hj
    have hilt : i < n := hmemlt i (by simp [hids])
    have hnknot : n ∉ keysOf s.prev := fun hc => lt_irrefl n (h.hfresh n hc)
    have hikey : i ∈ keysOf s.prev :=
      (mem_keysOf_iff _ _).mpr (rep_mem_lookup h (by simp [hids]))
    have hpre : prepend s v = (⟨n⟩, { s with
        nodes := setA s.nodes n ⟨v, s.head⟩
        head := some n
        prev := setA (setA s.prev n none) i (some n)
        size := s.size + 1
        fresh := n + 1 }) := by
      rw [prepend]
      rw [hh]
    set s' : FastSLL T := { s with
        nodes := setA s.nodes n ⟨v, s.head⟩
        head := some n
        prev := setA (setA s.prev n none) i (some n)
        size := s.size + 1
        fresh := n + 1 } with hdefs
    have hheapkeep : ∀ j, j ≠ n → heapGet s' j = heapGet s j := by
      intro j hjn
      simp [hdefs, heapGet, nodeGet_setA_ne _ _ _ _ hjn]
    have hheapn : heapGet s' n = ⟨v, some i⟩ := by
      simp [hdefs, heapGet, nodeGet_setA_self, hh]
    have hprevkeep : ∀ j, j ≠ n → j ≠ i → lookupA s'.prev j = lookupA s.prev j := by
      intro j hjn hji
      simp [hdefs, lookupA_setA_ne _ _ _ _ hji, lookupA_setA_ne _ _ _ _ hjn]
    have hprevi : lookupA s'.prev i = some (some n) := by
      simp [hdefs, lookupA_setA_self]
    have hprevn : lookupA s'.prev n = some none := by
      have hin : n ≠ i := Nat.ne_of_gt hilt
      simp [hdefs, lookupA_setA_ne _ _ _ _ hin, lookupA_setA_self]
    have hkeyseq : keysOf s'.prev = keysOf s.prev ++ [n] := by
      have h1 : keysOf (setA s.prev n none) = keysOf s.prev ++ [n] :=
        keysOf_setA_of_not_mem _ _ _ hnknot

      have h2 : i ∈ keysOf (setA s.prev n none) := by
        rw [h1]
        exact List.mem_append_left _ hikey
      calc keysOf s'.prev = keysOf (setA s.prev n none) := by
            simp [hdefs]
            exact keysOf_setA_of_mem _ _ _ h2
        _ = keysOf s.prev ++ [n] := h1
    refine ⟨by rw [hpre], ?_, by rw [hpre], ?_, ?_⟩
    · rw [hpre]
      constructor
      · show s'.head = (n :: ids).head?
        simp [hdefs]
      · show List.Chain' (fun a b => (heapGet s' a).next = some b) (n :: ids)
        rw [hids, List.chain'_cons]
        constructor
        · rw [hheapn]
        · rw [← hids]
          refine chain'_next_congr h.hchain ?_
          intro a ha
          have ham : a ∈ ids := List.dropLast_subset _ ha
          rw [hheapkeep a (Nat.ne_of_lt (hmemlt a ham))]
      · show ∀ a ∈ (n :: ids).getLast?, (heapGet s' a).next = none
        intro a ha
        have hmem : a ∈ (n :: ids).getLast? := ha
        have hgl : (n :: ids).getLast? = ids.getLast? := by
          rw [hids]
          simp [List.getLast?]
        rw [hgl] at hmem
        have halast : a ∈ ids := by
          rcases List.mem_getLast?_eq_getLast hmem with ⟨hne2, ha2⟩
          rw [ha2]
          exact List.getLast_mem hne2
        rw [hheapkeep a (Nat.ne_of_lt (hmemlt a halast))]
        exact h.hlast a hmem
      · show ∀ a ∈ (n :: ids).head?, lookupA s'.prev a = some none
        intro a ha
        have : n = a := by simpa using ha
        rw [← this]
        exact hprevn
      · show List.Chain' (fun a b => lookupA s'.prev b = some (some a)) (n :: ids)
        rw [hids, List.chain'_cons]
        constructor
        · exact hprevi
        · rw [← hids]
          refine chain'_congr_mem h.hpchain ?_
          intro a _ b hb hr
          have hbn : b ≠ n := Nat.ne_of_lt (hmemlt b hb)
          by_cases hbi : b = i
          · subst hbi
            have hbl : lookupA s.prev b = some none := h.hphead b (by simp [hids])
            rw [hbl] at hr
            simp at hr
          · rw [hprevkeep b hbn hbi]
            exact hr
      · show s'.tail = (n :: ids).getLast?
        have hgl : (n :: ids).getLast? = ids.getLast? := by
          rw [hids]
          simp [List.getLast?]
        rw [hgl]
        have : s'.tail = s.tail := by simp [hdefs]
        rw [this, h.htail]
      · show s'.size = (n :: ids).length
        have := h.hsize
        simp [hdefs, this]
      · show (n :: ids).Nodup
        rw [List.nodup_cons]
        exact ⟨rep_fresh_not_mem h, h.hnodup⟩
      · show ∀ j ∈ keysOf s'.prev, j ∈ n :: ids
        intro j hj
        rw [hkeyseq] at hj
        rcases List.mem_append.mp hj with hj | hj
        · exact List.mem_cons_of_mem _ (h.hkeys j hj)
        · have : j = n := by simpa using hj
          simp [this]
      · show (keysOf s'.prev).Nodup
        rw [hkeyseq, List.nodup_append]
        refine ⟨h.hknd, by simp, ?_⟩
        intro a ha hb
        have : a = n := by simpa using hb
        exact Nat.ne_of_lt (h.hfresh a ha) this
      · show s'.prev.length = (n :: ids).length
        have h2 : i ∈ keysOf (setA s.prev n none) := by
          rw [keysOf_setA_of_not_mem _ _ _ hnknot]
          exact List.mem_append_left _ hikey
        have l1 : (setA (setA s.prev n none) i (some n)).length
            = (setA s.prev n none).length := length_setA_of_mem _ _ _ h2
        have l2 : (setA s.prev n none).length = s.prev.length + 1 :=
          length_setA_of_not_mem _ _ _ hnknot
        have l3 := h.hplen
        simp only [hdefs, List.length_cons]
        omega
      · show ∀ j ∈ keysOf s'.prev, j < s'.fresh
        intro j hj
        rw [hkeyseq] at hj
        have hfr : s'.fresh = n + 1 := by simp [hdefs]
        rcases List.mem_append.mp hj with hj | hj
        · have := h.hfresh j hj
          omega
        · have : j = n := by simpa using hj
          omega
    · intro j hj
      rw [hpre]
      rw [hheapkeep j (Nat.ne_of_lt (hmemlt j hj))]
    · rw [hpre]
      have : heapGet { s with
          nodes := setA s.nodes n ⟨v, s.head⟩
          head := some n
          prev := setA (setA s.prev n none) i (some n)
          size := s.size + 1
          fresh := n + 1 } n = ⟨v, some i⟩ := hheapn
      rw [this]

/-- Inserting a fresh element in the middle of a duplicate-free list keeps
it duplicate-free. -/
theorem nodup_insert_mid {pre post : List Nat} {t x : Nat}
    (h : (pre ++ t :: post).Nodup) (hx : x ∉ pre ++ t :: post) :
    (pre ++ t :: x :: post).Nodup := by
  rw [List.nodup_append] at h ⊢
  simp only [List.mem_append, List.mem_cons, not_or] at hx
  rcases h with ⟨h1, h2, h3⟩
  rw [List.nodup_cons] at h2
  refine ⟨h1, ?_, ?_⟩
  · rw [List.nodup_cons, List.nodup_cons]
    refine ⟨?_, ?_, h2.2⟩
    · simp only [List.mem_cons, not_or]
      exact ⟨fun hc => hx.2.1 hc.symm, h2.1⟩
    · exact hx.2.2
  · intro a ha hc
    have hd : a = t ∨ a ∈ post → False := by
      have h0 := h3 ha
      intro hor
      apply h0
      simpa using hor
    simp only [List.mem_cons] at hc
    rcases hc with hc | hc | hc
    · exact hd (Or.inl hc)
    · exact hx.1 (hc ▸ ha)
    · exact hd (Or.inr hc)

/-- Transport of the representation along insert_after at the chain node t:
the fresh node is spliced immediately after t, data elsewhere is kept. -/
theorem rep_insert_after {s : FastSLL T} {pre post : List Nat} {t : Nat}
    (h : Rep s (pre ++ t :: post)) (v : T) :
    ∃ s', insert_after s ⟨t⟩ v = .ok (⟨s.fresh⟩, s') ∧
      Rep s' (pre ++ t :: s.fresh :: post) ∧
      s'.fresh = s.fresh + 1 ∧
      (∀ i ∈ pre ++ t :: post, (heapGet s' i).data = (heapGet s i).data) ∧
      (heapGet s' s.fresh).data = v := by
  have hval : lookupA s.prev t = some pre.getLast? := rep_lookup_pred h
  have hnextt : (heapGet s t).next = post.head? := rep_next_at h
  set ids := pre ++ t :: post with hids
  set n := s.fresh with hdefn
  have htmem : t ∈ ids := by simp [hids]
  have hmemlt : ∀ j ∈ ids, j < n := fun j hj => rep_mem_lt_fresh h hj
  have htlt : t < n := hmemlt t htmem
  have hnknot : n ∉ keysOf s.prev := fun hc => lt_irrefl n (h.hfresh n hc)
  cases post with
  | nil =>
    -- the target is the tail: the source behaves exactly like append
    have hne : ids ≠ [] := by simp [hids]
    have ht : s.tail = some t := by
      rw [h.htail, hids]
      simp [List.getLast?_append_cons]
    have hh : ∃ i0, s.head = some i0 := by
      rw [h.hhead]
      cases pre with
      | nil => exact ⟨t, by simp [hids]⟩
      | cons p0 pre2 => exact ⟨p0, by simp [hids]⟩
    obtain ⟨i0, hh⟩ := hh
    have heq : insert_after s ⟨t⟩ v = .ok (append s v) := by
      rw [insert_after, validate]
      rw [hval]
      simp only
      rw [hnextt]
      simp only [List.head?]
      rw [append, hh, ht]
    obtain ⟨ha1, ha2, ha3, ha4, ha5⟩ := rep_append h v
    refine ⟨(append s v).2, ?_, ?_, ha3, ha4, ha5⟩
    · rw [heq, hdefn, ← ha1]
    · have : ids ++ [n] = pre ++ t :: n :: [] := by simp [hids]
      rw [← this]
      exact ha2
  | cons b post2 =>
    have hbmem : b ∈ ids := by simp [hids]
    have hblt : b < n := hmemlt b hbmem
    have hbkey : b ∈ keysOf s.prev :=
      (mem_keysOf_iff _ _).mpr (rep_mem_lookup h hbmem)
    have hnd := h.hnodup
    have hbt : t ≠ b := by
      rw [hids] at hnd
      have hn2 := (List.nodup_append.mp hnd).2.1
      rw [List.nodup_cons] at hn2
      intro hc
      exact hn2.1 (hc ▸ List.mem_cons_self b post2)
    have heq : insert_after s ⟨t⟩ v = .ok (⟨n⟩, { s with
        nodes := setA (setA s.nodes t { heapGet s t with next := some n }) n
          ⟨v, (heapGet s t).next⟩
        prev := setA (setA s.prev n (some t)) b (some n)
        size := s.size + 1
        fresh := n + 1 }) := by
      rw [insert_after, validate]
      rw [hval]
      simp only
      rw [hnextt]
      simp only [List.head?]
    set s' : FastSLL T := { s with
        nodes := setA (setA s.nodes t { heapGet s t with next := some n }) n
          ⟨v, (heapGet s t).next⟩
        prev := setA (setA s.prev n (some t)) b (some n)
        size := s.size + 1
        fresh := n + 1 } with hdefs
    have hheapkeep : ∀ j, j ≠ n → j ≠ t → heapGet s' j = heapGet s j := by
      intro j hjn hjt
      simp [hdefs, heapGet, nodeGet_setA_ne _ _ _ _ hjn,
        nodeGet_setA_ne _ _ _ _ hjt]
    have hheapt : (heapGet s' t).next = some n := by
      have htn : t ≠ n := Nat.ne_of_lt htlt
      simp [hdefs, heapGet, nodeGet_setA_ne _ _ _ _ htn, nodeGet_setA_self]
    have hheapn : heapGet s' n = ⟨v, some b⟩ := by
      have h1 : heapGet s' n = ⟨v, (heapGet s t).next⟩ := by
        simp [hdefs, heapGet, nodeGet_setA_self]
      rw [h1, hnextt]
      rfl
    have hprevkeep : ∀ j, j ≠ n → j ≠ b → lookupA s'.prev j = lookupA s.prev j := by
      intro j hjn hjb
      simp [hdefs, lookupA_setA_ne _ _ _ _ hjb, lookupA_setA_ne _ _ _ _ hjn]
    have hprevn : lookupA s'.prev n = some (some t) := by
      have hnb : n ≠ b := Nat.ne_of_gt hblt
      simp [hdefs, lookupA_setA_ne _ _ _ _ hnb, lookupA_setA_self]
    have hprevb : lookupA s'.prev b = some (some n) := by
      simp [hdefs, lookupA_setA_self]
    have hkeyseq : keysOf s'.prev = keysOf s.prev ++ [n] := by
      have h1 : keysOf (setA s.prev n (some t)) = keysOf s.prev ++ [n] :=
        keysOf_setA_of_not_mem _ _ _ hnknot
      have h2 : b ∈ keysOf (setA s.prev n (some t)) := by
        rw [h1]
        exact List.mem_append_left _ hbkey
      calc keysOf s'.prev = keysOf (setA s.prev n (some t)) := by
            simp [hdefs]
            exact keysOf_setA_of_mem _ _ _ h2
        _ = keysOf s.prev ++ [n] := h1
    have hchainsplit := List.chain'_append.mp
      (show List.Chain' (fun a b2 => (heapGet s a).next = some b2)
          ((pre ++ [t]) ++ b :: post2) by
        simpa [hids] using h.hchain)
    have hpchainsplit := List.chain'_append.mp
      (show List.Chain' (fun a b2 => lookupA s.prev b2 = some (some a))
          ((pre ++ [t]) ++ b :: post2) by
        simpa [hids] using h.hpchain)
    have hpresub : ∀ a ∈ pre ++ [t], a ∈ ids := by
      intro a ha
      rw [hids]
      rcases List.mem_append.mp ha with ha | ha
      · exact List.mem_append_left _ ha
      · have : a = t := by simpa using ha
        simp [this]
    have hpostsub : ∀ a ∈ b :: post2, a ∈ ids := by
      intro a ha
      rw [hids]
      exact List.mem_append_right _ (List.mem_cons_of_mem t ha)
    have hpredisj : ∀ a ∈ pre ++ [t], a ∉ b :: post2 := by
      intro a ha hc
      have hnd2 : ((pre ++ [t]) ++ b :: post2).Nodup := by
        simpa [hids] using h.hnodup
      exact (List.nodup_append.mp hnd2).2.2 ha hc
    refine ⟨s', heq, ?_, by simp [hdefs], ?_, by rw [hheapn]⟩
    · constructor
      · show s'.head = (pre ++ t :: n :: b :: post2).head?
        have hsh : s'.head = s.head := by simp [hdefs]
        rw [hsh, h.hhead, hids]
        cases pre <;> simp
      · show List.Chain' (fun a b2 => (heapGet s' a).next = some b2)
          (pre ++ t :: n :: b :: post2)
        have hsplit : pre ++ t :: n :: b :: post2 = (pre ++ [t]) ++ n :: b :: post2 := by
          simp
        rw [hsplit, List.chain'_append]
        refine ⟨?_, ?_, ?_⟩
        · refine chain'_next_congr hchainsplit.1 ?_
          intro a ha
          have ham : a ∈ pre := by
            have : (pre ++ [t]).dropLast = pre := by simp
            rwa [this] at ha
          have hat : a ≠ t := by
            intro hc
            have hnd2 : ((pre ++ [t]) ++ b :: post2).Nodup := by
              simpa [hids] using h.hnodup
            have hdj := (List.nodup_append.mp (List.nodup_append.mp hnd2).1).2.2
            exact hdj ham (by simp [hc])
          have han : a ≠ n :=
            Nat.ne_of_lt (hmemlt a (hpresub a (List.mem_append_left _ ham)))
          rw [hheapkeep a han hat]
        · rw [List.chain'_cons]
          refine ⟨by rw [hheapn], ?_⟩
          refine chain'_next_congr hchainsplit.2.1 ?_
          intro a ha
          have ham : a ∈ b :: post2 := List.dropLast_subset _ ha
          have hat : a ≠ t := fun hc => hpredisj t (by simp) (hc ▸ ham)
          have han : a ≠ n := Nat.ne_of_lt (hmemlt a (hpostsub a ham))
          rw [hheapkeep a han hat]
        · intro x hx y hy
          have hxt : t = x := by
            rw [List.getLast?_append_cons] at hx
            simpa using hx
          have hyn : n = y := by simpa using hy
          rw [← hxt, ← hyn]
          exact hheapt
      · show ∀ a ∈ (pre ++ t :: n :: b :: post2).getLast?, (heapGet s' a).next = none
        intro a ha
        rw [List.getLast?_append_cons] at ha
        have ha2 : a ∈ (b :: post2).getLast? := by
          simpa [List.getLast?] using ha
        have ham : a ∈ b :: post2 := by
          rcases List.mem_getLast?_eq_getLast ha2 with ⟨hne2, ha3⟩
          rw [ha3]
          exact List.getLast_mem hne2
        have hat : a ≠ t := fun hc => hpredisj t (by simp) (hc ▸ ham)
        have han : a ≠ n := Nat.ne_of_lt (hmemlt a (hpostsub a ham))
        rw [hheapkeep a han hat]
        refine h.hlast a ?_
        rw [hids, List.getLast?_append_cons]
        simpa [List.getLast?] using ha2
      · show ∀ a ∈ (pre ++ t :: n :: b :: post2).head?, lookupA s'.prev a = some none
        intro a ha
        have hh0 : ∀ a2 ∈ ids.head?, lookupA s.prev a2 = some none := h.hphead
        cases pre with
        | nil =>
          have hat : t = a := by simpa using ha
          have han : a ≠ n := Nat.ne_of_lt (hmemlt a (hat ▸ htmem))
          have hab : a ≠ b := hat ▸ hbt
          rw [hprevkeep a han hab]
          exact hh0 a (by rw [hids, ← hat]; simp)
        | cons p0 pre2 =>
          have hap : p0 = a := by simpa using ha
          have hamem : a ∈ ids := by
            rw [hids, ← hap]
            simp
          have han : a ≠ n := Nat.ne_of_lt (hmemlt a hamem)
          have hab : a ≠ b := by
            intro hc
            exact hpredisj a (by simp [← hap]) (by simp [hc])
          rw [hprevkeep a han hab]
          exact hh0 a (by rw [hids, ← hap]; simp)
      · show List.Chain' (fun a b2 => lookupA s'.prev b2 = some (some a))
          (pre ++ t :: n :: b :: post2)
        have hsplit : pre ++ t :: n :: b :: post2 = (pre ++ [t]) ++ n :: b :: post2 := by
          simp
        rw [hsplit, List.chain'_append]
        refine ⟨?_, ?_, ?_⟩
        · refine chain'_congr_mem hpchainsplit.1 ?_
          intro a _ b2 hb2 hr
          have hbn : b2 ≠ n := Nat.ne_of_lt (hmemlt b2 (hpresub b2 hb2))
          have hbb : b2 ≠ b := fun hc => hpredisj b2 hb2 (by simp [hc])
          rw [hprevkeep b2 hbn hbb]
          exact hr
        · rw [List.chain'_cons]
          refine ⟨hprevb, ?_⟩
          refine chain'_congr_mem hpchainsplit.2.1 ?_
          intro a ha b2 hb2 hr
          have hbn : b2 ≠ n := Nat.ne_of_lt (hmemlt b2 (hpostsub b2 hb2))
          by_cases hbb : b2 = b
          · subst hbb
            have hjoin := hpchainsplit.2.2 t
              (by rw [List.getLast?_append_cons]; simp) b2 (by simp)
            rw [hjoin] at hr
            have hat : a = t := by simpa using hr.symm
            exact absurd (hat ▸ ha) (fun hc => hpredisj t (by simp) hc)
          · rw [hprevkeep b2 hbn hbb]
            exact hr
        · intro x hx y hy
          have hxt : t = x := by
            rw [List.getLast?_append_cons] at hx
            simpa using hx
          have hyn : n = y := by simpa using hy
          rw [← hxt, ← hyn]
          exact hprevn
      · show s'.tail = (pre ++ t :: n :: b :: post2).getLast?
        have hst : s'.tail = s.tail := by simp [hdefs]
        rw [hst, h.htail, hids, List.getLast?_append_cons,
          List.getLast?_append_cons]
        simp [List.getLast?]
      · show s'.size = (pre ++ t :: n :: b :: post2).length
        have h1 : s'.size = s.size + 1 := by simp [hdefs]
        have h2 := h.hsize
        rw [hids] at h2
        rw [h1, h2]
        simp
        omega
      · show (pre ++ t :: n :: b :: post2).Nodup
        refine nodup_insert_mid ?_ ?_
        · simpa [hids] using h.hnodup
        · rw [← hids]
          exact rep_fresh_not_mem h
      · show ∀ j ∈ keysOf s'.prev, j ∈ pre ++ t :: n :: b :: post2
        intro j hj
        rw [hkeyseq] at hj
        rcases List.mem_append.mp hj with hj | hj
        · have := h.hkeys j hj
          rw [hids] at this
          rcases List.mem_append.mp this with hm | hm
          · exact List.mem_append_left _ hm
          · rcases List.mem_cons.mp hm with hm | hm
            · simp [hm]
            · simp [hm]
        · have : j = n := by simpa using hj
          simp [this]
      · show (keysOf s'.prev).Nodup
        rw [hkeyseq, List.nodup_append]
        refine ⟨h.hknd, by simp, ?_⟩
        intro a ha hb
        have : a = n := by simpa using hb
        exact Nat.ne_of_lt (h.hfresh a ha) this
      · show s'.prev.length = (pre ++ t :: n :: b :: post2).length
        have h1 : (setA s.prev n (some t)).length = s.prev.length + 1 :=
          length_setA_of_not_mem _ _ _ hnknot
        have h2 : b ∈ keysOf (setA s.prev n (some t)) := by
          rw [keysOf_setA_of_not_mem _ _ _ hnknot]
          exact List.mem_append_left _ hbkey
        have h3 : (setA (setA s.prev n (some t)) b (some n)).length
            = (setA s.prev n (some t)).length := length_setA_of_mem _ _ _ h2
        have h4 := h.hplen
        rw [hids] at h4
        simp only [hdefs]
        simp only [List.length_append, List.length_cons] at h4 ⊢
        omega
      · show ∀ j ∈ keysOf s'.prev, j < s'.fresh
        intro j hj
        rw [hkeyseq] at hj
        have hfr : s'.fresh = n + 1 := by simp [hdefs]
        rcases List.mem_append.mp hj with hj | hj
        · have := h.hfresh j hj
          omega
        · have : j = n := by simpa using hj
          omega
    · intro j hj
      have hj2 : j ∈ ids := hj
      have hjn : j ≠ n := Nat.ne_of_lt (hmemlt j hj2)
      by_cases hjt : j = t
      · subst hjt
        have htn : j ≠ n := Nat.ne_of_lt htlt
        simp [hdefs, heapGet, nodeGet_setA_ne _ _ _ _ htn, nodeGet_setA_self]
      · rw [hheapkeep j hjn hjt]

/-- Transport of the representation along insert_before at the chain node t:
the fresh node is spliced immediately before t.  When t is the head the
source delegates to prepend; otherwise the splice through the predecessor
index produces exactly the state insert_after at the predecessor would. -/
theorem rep_insert_before {s : FastSLL T} {pre post : List Nat} {t : Nat}
    (h : Rep s (pre ++ t :: post)) (v : T) :
    ∃ s', insert_before s ⟨t⟩ v = .ok (⟨s.fresh⟩, s') ∧
      Rep s' (pre ++ s.fresh :: t :: post) ∧
      s'.fresh = s.fresh + 1 ∧
      (∀ i ∈ pre ++ t :: post, (heapGet s' i).data = (heapGet s i).data) ∧
      (heapGet s' s.fresh).data = v := by
  have hval : lookupA s.prev t = some pre.getLast? := rep_lookup_pred h
  rcases List.eq_nil_or_concat pre with hpre | ⟨pre0, pd, hpre⟩
  · subst hpre
    have hval2 : lookupA s.prev t = some none := by simpa using hval
    have heq : insert_before s ⟨t⟩ v = .ok (prepend s v) := by
      rw [insert_before]
      rw [hval2]
    obtain ⟨ha1, ha2, ha3, ha4, ha5⟩ := rep_prepend h v
    refine ⟨(prepend s v).2, ?_, by simpa using ha2, ha3, ha4, ha5⟩
    rw [heq, ← ha1]
  · subst hpre
    rw [List.concat_eq_append] at h hval ⊢
    have h2 : Rep s (pre0 ++ pd :: t :: post) := by
      have : (pre0 ++ [pd]) ++ t :: post = pre0 ++ pd :: t :: post := by simp
      rwa [this] at h
    have hval3 : lookupA s.prev t = some (some pd) := by
      rw [hval]
      simp [List.getLast?_append_cons]
    have hvalpd : lookupA s.prev pd = some pre0.getLast? := rep_lookup_pred h2
    have hnextpd : (heapGet s pd).next = some t := by
      have := rep_next_at h2
      simpa using this
    have heq2 : insert_before s ⟨t⟩ v = insert_after s ⟨pd⟩ v := by
      rw [insert_before, insert_after, validate]
      rw [hval3, hvalpd]
      simp only
      rw [hnextpd]
    obtain ⟨s', he1, he2, he3, he4, he5⟩ := rep_insert_after h2 v
    refine ⟨s', ?_, ?_, he3, ?_, he5⟩
    · rw [heq2, he1]
    · have : pre0 ++ pd :: s.fresh :: t :: post
          = (pre0 ++ [pd]) ++ s.fresh :: t :: post := by simp
      rwa [this] at he2
    · intro j hj
      refine he4 j ?_
      have : (pre0 ++ [pd]) ++ t :: post = pre0 ++ pd :: t :: post := by simp
      rwa [this] at hj

/-- Transport of the representation along remove at the chain node t: the
node is unlinked, its index entry deleted, data elsewhere kept, and its
own prev entry gone. -/
theorem rep_remove {s : FastSLL T} {pre post : List Nat} {t : Nat}
    (h : Rep s (pre ++ t :: post)) :
    ∃ s', remove s ⟨t⟩ = .ok ((heapGet s t).data, s') ∧
      Rep s' (pre ++ post) ∧
      s'.fresh = s.fresh ∧
      (∀ i ∈ pre ++ post, (heapGet s' i).data = (heapGet s i).data) ∧
      lookupA s'.prev t = none := by
  have hval : lookupA s.prev t = some pre.getLast? := rep_lookup_pred h
  have hnextt : (heapGet s t).next = post.head? := rep_next_at h
  have htmem : t ∈ pre ++ t :: post := by simp
  have htkey : t ∈ keysOf s.prev :=
    (mem_keysOf_iff _ _).mpr (rep_mem_lookup h htmem)
  have hnd : (pre ++ t :: post).Nodup := h.hnodup
  have hndsplit := List.nodup_append.mp hnd
  have htnotpre : t ∉ pre := fun hc => hndsplit.2.2 hc (by simp)
  have htnotpost : t ∉ post := by
    have := hndsplit.2.1
    rw [List.nodup_cons] at this
    exact this.1
  have hpredisj : ∀ a ∈ pre, a ∉ t :: post := fun a ha => hndsplit.2.2 ha
  rcases List.eq_nil_or_concat pre with hpre | ⟨pre0, pd, hpre⟩
  · subst hpre
    have hval2 : lookupA s.prev t = some none := by simpa using hval
    cases post with
    | nil =>
      set s' : FastSLL T := { s with
          head := none
          tail := none
          prev := eraseA s.prev t
          size := s.size - 1
          nodes := setA s.nodes t { heapGet s t with next := none } } with hdefs
      have heq : remove s ⟨t⟩ = .ok ((heapGet s t).data, s') := by
        rw [remove]
        rw [hval2]
        simp only
        rw [hnextt]
        simp only [List.head?]
      have hsz : s.size = 1 := by simpa using h.hsize
      have hpl : s.prev.length = 1 := by simpa using h.hplen
      have hkeyempty : ∀ j, j ∉ keysOf s'.prev := by
        intro j hj
        have hj2 := (mem_keysOf_eraseA_iff s.prev t j h.hknd).mp (by simpa [hdefs] using hj)
        have := h.hkeys j hj2.1
        have : j = t := by simpa using this
        exact hj2.2 this
      refine ⟨s', heq, ?_, by simp [hdefs], by simp, ?_⟩
      · constructor
        · show s'.head = ([] : List Nat).head?
          simp [hdefs]
        · show List.Chain' _ ([] : List Nat)
          simp
        · show ∀ a ∈ ([] : List Nat).getLast?, (heapGet s' a).next = none
          simp
        · show ∀ a ∈ ([] : List Nat).head?, lookupA s'.prev a = some none
          simp
        · show List.Chain' _ ([] : List Nat)
          simp
        · show s'.tail = ([] : List Nat).getLast?
          simp [hdefs]
        · show s'.size = ([] : List Nat).length
          simp [hdefs, hsz]
        · show ([] : List Nat).Nodup
          simp
        · show ∀ j ∈ keysOf s'.prev, j ∈ ([] : List Nat)
          intro j hj
          exact absurd hj (hkeyempty j)
        · show (keysOf s'.prev).Nodup
          exact ((keysOf_eraseA_sublist s.prev t).nodup h.hknd :)
        · show s'.prev.length = ([] : List Nat).length
          have := length_eraseA_of_mem s.prev t h.hknd htkey
          simp only [hdefs, List.length_nil]
          omega
        · show ∀ j ∈ keysOf s'.prev, j < s'.fresh
          intro j hj
          exact absurd hj (hkeyempty j)
      · show lookupA s'.prev t = none
        simp only [hdefs]
        exact lookupA_eraseA_self s.prev t h.hknd
    | cons b post2 =>
      have hbmem : b ∈ [] ++ t :: b :: post2 := by simp
      have hbkey : b ∈ keysOf s.prev :=
        (mem_keysOf_iff _ _).mpr (rep_mem_lookup h hbmem)
      have htb : t ≠ b := by
        intro hc
        exact htnotpost (hc ▸ List.mem_cons_self b post2)
      have hksetA : keysOf (setA s.prev b none) = keysOf s.prev :=
        keysOf_setA_of_mem _ _ _ hbkey
      have hkndsetA : (keysOf (setA s.prev b none)).Nodup := by
        rw [hksetA]
        exact h.hknd
      set s' : FastSLL T := { s with
          head := some b
          prev := eraseA (setA s.prev b none) t
          size := s.size - 1
          nodes := setA s.nodes t { heapGet s t with next := none } } with hdefs
      have heq : remove s ⟨t⟩ = .ok ((heapGet s t).data, s') := by
        rw [remove]
        rw [hval2]
        simp only
        rw [hnextt]
        simp only [List.head?]
      have hheapkeep : ∀ j, j ≠ t → heapGet s' j = heapGet s j := by
        intro j hjt
        simp [hdefs, heapGet, nodeGet_setA_ne _ _ _ _ hjt]
      have hprevkeep : ∀ j, j ≠ t → j ≠ b → lookupA s'.prev j = lookupA s.prev j := by
        intro j hjt hjb
        simp only [hdefs]
        rw [lookupA_eraseA_ne _ _ _ hjt, lookupA_setA_ne _ _ _ _ hjb]
      have hprevb : lookupA s'.prev b = some none := by
        simp only [hdefs]
        rw [lookupA_eraseA_ne _ _ _ (Ne.symm htb), lookupA_setA_self]
      have hpostmem : ∀ a ∈ b :: post2, a ∈ [] ++ t :: b :: post2 := by
        intro a ha
        simp only [List.nil_append, List.mem_cons] at ha ⊢
        tauto
      refine ⟨s', heq, ?_, by simp [hdefs], ?_, ?_⟩
      · constructor
        · show s'.head = ([] ++ b :: post2).head?
          simp [hdefs]
        · show List.Chain' (fun a b2 => (heapGet s' a).next = some b2) ([] ++ b :: post2)
          simp only [List.nil_append]
          have hold : List.Chain' (fun a b2 => (heapGet s a).next = some b2) (b :: post2) :=
            (List.chain'_cons'.mp (by simpa using h.hchain)).2
          refine chain'_next_congr hold ?_
          intro a ha
          have ham : a ∈ b :: post2 := List.dropLast_subset _ ha
          have hat : a ≠ t := fun hc => htnotpost (hc ▸ ham)
          rw [hheapkeep a hat]
        · show ∀ a ∈ ([] ++ b :: post2).getLast?, (heapGet s' a).next = none
          intro a ha
          simp only [List.nil_append] at ha
          have ham : a ∈ b :: post2 := by
            rcases List.mem_getLast?_eq_getLast ha with ⟨hne2, ha3⟩
            rw [ha3]
            exact List.getLast_mem hne2
          have hat : a ≠ t := fun hc => htnotpost (hc ▸ ham)
          rw [hheapkeep a hat]
          refine h.hlast a ?_
          simpa using ha
        · show ∀ a ∈ ([] ++ b :: post2).head?, lookupA s'.prev a = some none
          intro a ha
          have : b = a := by simpa using ha
          rw [← this]
          exact hprevb
        · show List.Chain' (fun a b2 => lookupA s'.prev b2 = some (some a)) ([] ++ b :: post2)
          simp only [List.nil_append]
          have hold : List.Chain' (fun a b2 => lookupA s.prev b2 = some (some a)) (b :: post2) :=
            (List.chain'_cons'.mp (by simpa using h.hpchain)).2
          refine chain'_congr_mem hold ?_
          intro a ha b2 hb2 hr
          have hbt2 : b2 ≠ t := fun hc => htnotpost (hc ▸ hb2)
          by_cases hbb : b2 = b
          · have hpair : lookupA s.prev b2 = some (some t) := by
              have h0 := h.hpchain
              simp only [List.nil_append] at h0
              rw [hbb]
              exact (List.chain'_cons.mp h0).1
            rw [hpair] at hr
            have hat2 : a = t := by simpa using hr.symm
            exact absurd (hat2 ▸ ha) htnotpost
          · rw [hprevkeep b2 hbt2 hbb]
            exact hr
        · show s'.tail = ([] ++ b :: post2).getLast?
          have h1 : s'.tail = s.tail := by simp [hdefs]
          rw [h1, h.htail]
          simp
        · show s'.size = ([] ++ b :: post2).length
          have h1 := h.hsize
          simp only [hdefs, List.nil_append, List.length_cons, List.length_append] at h1 ⊢
          omega
        · show ([] ++ b :: post2).Nodup
          have := hndsplit.2.1
          rw [List.nodup_cons] at this
          simpa using this.2
        · show ∀ j ∈ keysOf s'.prev, j ∈ [] ++ b :: post2
          intro j hj
          have hj2 := (mem_keysOf_eraseA_iff _ t j hkndsetA).mp
            (by simpa [hdefs] using hj)
          rw [hksetA] at hj2
          have := h.hkeys j hj2.1
          simp only [List.nil_append, List.mem_cons] at this ⊢
          rcases this with hc | hc
          · exact absurd hc hj2.2
          · exact hc
        · show (keysOf s'.prev).Nodup
          exact ((keysOf_eraseA_sublist _ t).nodup hkndsetA :)
        · show s'.prev.length = ([] ++ b :: post2).length
          have h1 : (setA s.prev b none).length = s.prev.length :=
            length_setA_of_mem _ _ _ hbkey
          have h2 : t ∈ keysOf (setA s.prev b none) := by
            rw [hksetA]
            exact htkey
          have h3 := length_eraseA_of_mem _ t hkndsetA h2
          have h4 := h.hplen
          simp only [hdefs, List.nil_append, List.length_cons, List.length_append] at h4 ⊢
          omega
        · show ∀ j ∈ keysOf s'.prev, j < s'.fresh
          intro j hj
          have hj1 : j ∈ keysOf (setA s.prev b none) :=
            mem_keysOf_eraseA _ t j (by simpa [hdefs] using hj)
          rw [hksetA] at hj1
          have := h.hfresh j hj1
          simpa [hdefs] using this
      · intro j hj
        have hjm : j ∈ b :: post2 := by simpa using hj
        have hjt : j ≠ t := fun hc => htnotpost (hc ▸ hjm)
        rw [hheapkeep j hjt]
      · show lookupA s'.prev t = none
        simp only [hdefs]
        exact lookupA_eraseA_self _ t hkndsetA
  · subst hpre
    rw [List.concat_eq_append] at hval hnd hndsplit htnotpre hpredisj htmem h ⊢
    have hgl : (pre0 ++ [pd]).getLast? = some pd := by
      simp [List.getLast?_append_cons]
    have hval2 : lookupA s.prev t = some (some pd) := by
      rw [hval, hgl]
    have hpdmem : pd ∈ (pre0 ++ [pd]) ++ t :: post := by simp
    have hpdt : pd ≠ t := by
      intro hc
      exact htnotpre (hc ▸ (by simp : pd ∈ pre0 ++ [pd]))
    have hpre2 : Rep s (pre0 ++ pd :: t :: post) := by
      have : (pre0 ++ [pd]) ++ t :: post = pre0 ++ pd :: t :: post := by simp
      rwa [this] at h
    have hnextpd : (heapGet s pd).next = some t := by
      have := rep_next_at hpre2
      simpa using this
    have hchainpre : List.Chain' (fun a b2 => (heapGet s a).next = some b2)
        (pre0 ++ [pd]) := (List.chain'_append.mp h.hchain).1
    have hpchainpre : List.Chain' (fun a b2 => lookupA s.prev b2 = some (some a))
        (pre0 ++ [pd]) := (List.chain'_append.mp h.hpchain).1
    have hpre0notpd : ∀ a ∈ pre0, a ≠ pd := by
      intro a ha hc
      have := (List.nodup_append.mp hndsplit.1).2.2
      exact this ha (by simp [hc])
    cases post with
    | nil =>
      set s' : FastSLL T := { s with
          nodes := setA (setA s.nodes pd { heapGet s pd with next := none }) t
            { heapGet s t with next := none }
          tail := some pd
          prev := eraseA s.prev t
          size := s.size - 1 } with hdefs
      have heq : remove s ⟨t⟩ = .ok ((heapGet s t).data, s') := by
        rw [remove]
        rw [hval2]
        simp only
        rw [hnextt]
        simp only [List.head?]
      have hheapkeep : ∀ j, j ≠ t → j ≠ pd → heapGet s' j = heapGet s j := by
        intro j hjt hjpd
        simp [hdefs, heapGet, nodeGet_setA_ne _ _ _ _ hjt,
          nodeGet_setA_ne _ _ _ _ hjpd]
      have hheappd : (heapGet s' pd).next = none := by
        simp [hdefs, heapGet, nodeGet_setA_ne _ _ _ _ hpdt, nodeGet_setA_self]
      have hprevkeep : ∀ j, j ≠ t → lookupA s'.prev j = lookupA s.prev j := by
        intro j hjt
        simp only [hdefs]
        exact lookupA_eraseA_ne _ _ _ hjt
      refine ⟨s', heq, ?_, by simp [hdefs], ?_, ?_⟩
      · constructor
        · show s'.head = ((pre0 ++ [pd]) ++ []).head?
          have h1 : s'.head = s.head := by simp [hdefs]
          rw [h1, h.hhead]
          cases pre0 <;> simp
        · show List.Chain' (fun a b2 => (heapGet s' a).next = some b2) ((pre0 ++ [pd]) ++ [])
          rw [List.append_nil]
          refine chain'_next_congr hchainpre ?_
          intro a ha
          have ham : a ∈ pre0 := by
            have : (pre0 ++ [pd]).dropLast = pre0 := by simp
            rwa [this] at ha
          have hat : a ≠ t := by
            intro hc
            exact htnotpre (hc ▸ List.mem_append_left _ ham)
          rw [hheapkeep a hat (hpre0notpd a ham)]
        · show ∀ a ∈ ((pre0 ++ [pd]) ++ []).getLast?, (heapGet s' a).next = none
          intro a ha
          rw [List.append_nil, hgl] at ha
          have : pd = a := by simpa using ha
          rw [← this]
          exact hheappd
        · show ∀ a ∈ ((pre0 ++ [pd]) ++ []).head?, lookupA s'.prev a = some none
          intro a ha
          rw [List.append_nil] at ha
          have hamem : a ∈ pre0 ++ [pd] := List.mem_of_mem_head? ha
          have hat : a ≠ t := fun hc => htnotpre (hc ▸ hamem)
          rw [hprevkeep a hat]
          refine h.hphead a ?_
          rw [List.head?_append_of_ne_nil _ (by simp)]
          exact ha
        · show List.Chain' (fun a b2 => lookupA s'.prev b2 = some (some a)) ((pre0 ++ [pd]) ++ [])
          rw [List.append_nil]
          refine chain'_congr_mem hpchainpre ?_
          intro a _ b2 hb2 hr
          have hbt2 : b2 ≠ t := fun hc => htnotpre (hc ▸ hb2)
          rw [hprevkeep b2 hbt2]
          exact hr
        · show s'.tail = ((pre0 ++ [pd]) ++ []).getLast?
          rw [List.append_nil, hgl]
        · show s'.size = ((pre0 ++ [pd]) ++ []).length
          have h1 := h.hsize
          simp only [hdefs, List.length_append, List.length_cons] at h1 ⊢
          omega
        · show ((pre0 ++ [pd]) ++ []).Nodup
          rw [List.append_nil]
          exact hndsplit.1
        · show ∀ j ∈ keysOf s'.prev, j ∈ (pre0 ++ [pd]) ++ []
          intro j hj
          have hj2 := (mem_keysOf_eraseA_iff s.prev t j h.hknd).mp
            (by simpa [hdefs] using hj)
          have := h.hkeys j hj2.1
          rw [List.append_nil]
          rcases List.mem_append.mp this with hc | hc
          · exact hc
          · rcases List.mem_cons.mp hc with hc | hc
            · exact absurd hc hj2.2
            · exact absurd hc (List.not_mem_nil j)
        · show (keysOf s'.prev).Nodup
          exact ((keysOf_eraseA_sublist s.prev t).nodup h.hknd :)
        · show s'.prev.length = ((pre0 ++ [pd]) ++ []).length
          have h3 := length_eraseA_of_mem s.prev t h.hknd htkey
          have h4 := h.hplen
          simp only [hdefs, List.length_append, List.length_cons] at h4 ⊢
          omega
        · show ∀ j ∈ keysOf s'.prev, j < s'.fresh
          intro j hj
          have hj1 : j ∈ keysOf s.prev :=
            mem_keysOf_eraseA _ t j (by simpa [hdefs] using hj)
          have := h.hfresh j hj1
          simpa [hdefs] using this
      · intro j hj
        rw [List.append_nil] at hj
        have hjt : j ≠ t := fun hc => htnotpre (hc ▸ hj)
        by_cases hjpd : j = pd
        · subst hjpd
          simp [hdefs, heapGet, nodeGet_setA_ne _ _ _ _ hjt, nodeGet_setA_self]
        · rw [hheapkeep j hjt hjpd]
      · show lookupA s'.prev t = none
        simp only [hdefs]
        exact lookupA_eraseA_self s.prev t h.hknd
    | cons b post2 =>
      have hbmem : b ∈ (pre0 ++ [pd]) ++ t :: b :: post2 := by simp
      have hbkey : b ∈ keysOf s.prev :=
        (mem_keysOf_iff _ _).mpr (rep_mem_lookup h hbmem)
      have htb : t ≠ b := by
        intro hc
        exact htnotpost (hc ▸ List.mem_cons_self b post2)
      have hpdb : pd ≠ b := by
        intro hc
        exact hpredisj pd (by simp) (by simp [hc])
      have hksetA : keysOf (setA s.prev b (some pd)) = keysOf s.prev :=
        keysOf_setA_of_mem _ _ _ hbkey
      have hkndsetA : (keysOf (setA s.prev b (some pd))).Nodup := by
        rw [hksetA]
        exact h.hknd
      set s' : FastSLL T := { s with
          nodes := setA (setA s.nodes pd { heapGet s pd with next := some b }) t
            { heapGet s t with next := none }
          prev := eraseA (setA s.prev b (some pd)) t
          size := s.size - 1 } with hdefs
      have heq : remove s ⟨t⟩ = .ok ((heapGet s t).data, s') := by
        rw [remove]
        rw [hval2]
        simp only
        rw [hnextt]
        simp only [List.head?]
      have hheapkeep : ∀ j, j ≠ t → j ≠ pd → heapGet s' j = heapGet s j := by
        intro j hjt hjpd
        simp [hdefs, heapGet, nodeGet_setA_ne _ _ _ _ hjt,
          nodeGet_setA_ne _ _ _ _ hjpd]
      have hheappd : (heapGet s' pd).next = some b := by
        simp [hdefs, heapGet, nodeGet_setA_ne _ _ _ _ hpdt, nodeGet_setA_self]
      have hprevkeep : ∀ j, j ≠ t → j ≠ b → lookupA s'.prev j = lookupA s.prev j := by
        intro j hjt hjb
        simp only [hdefs]
        rw [lookupA_eraseA_ne _ _ _ hjt, lookupA_setA_ne _ _ _ _ hjb]
      have hprevb : lookupA s'.prev b = some (some pd) := by
        simp only [hdefs]
        rw [lookupA_eraseA_ne _ _ _ (Ne.symm htb), lookupA_setA_self]
      have hpostdisj : ∀ a ∈ b :: post2, a ≠ t ∧ a ≠ pd := by
        intro a ha
        constructor
        · intro hc
          exact htnotpost (hc ▸ ha)
        · intro hc
          exact hpredisj pd (by simp) (by simp [← hc, ha])
      refine ⟨s', heq, ?_, by simp [hdefs], ?_, ?_⟩
      · constructor
        · show s'.head = ((pre0 ++ [pd]) ++ b :: post2).head?
          have h1 : s'.head = s.head := by simp [hdefs]
          rw [h1, h.hhead]
          cases pre0 <;> simp
        · show List.Chain' (fun a b2 => (heapGet s' a).next = some b2)
            ((pre0 ++ [pd]) ++ b :: post2)
          rw [List.chain'_append]
          refine ⟨?_, ?_, ?_⟩
          · refine chain'_next_congr hchainpre ?_
            intro a ha
            have ham : a ∈ pre0 := by
              have : (pre0 ++ [pd]).dropLast = pre0 := by simp
              rwa [this] at ha
            have hat : a ≠ t := fun hc => htnotpre (hc ▸ List.mem_append_left _ ham)
            rw [hheapkeep a hat (hpre0notpd a ham)]
          · have hold : List.Chain' (fun a b2 => (heapGet s a).next = some b2)
                (b :: post2) := (List.chain'_append.mp h.hchain).2.1.tail
            refine chain'_next_congr hold ?_
            intro a ha
            have ham : a ∈ b :: post2 := List.dropLast_subset _ ha
            have hd := hpostdisj a ham
            rw [hheapkeep a hd.1 hd.2]
          · intro x hx y hy
            have hxt : pd = x := by
              rw [hgl] at hx
              simpa using hx
            have hyb : b = y := by simpa using hy
            rw [← hxt, ← hyb]
            exact hheappd
        · show ∀ a ∈ ((pre0 ++ [pd]) ++ b :: post2).getLast?, (heapGet s' a).next = none
          intro a ha
          rw [List.getLast?_append_cons] at ha
          have ham : a ∈ b :: post2 := by
            rcases List.mem_getLast?_eq_getLast ha with ⟨hne2, ha3⟩
            rw [ha3]
            exact List.getLast_mem hne2
          have hd := hpostdisj a ham
          rw [hheapkeep a hd.1 hd.2]
          refine h.hlast a ?_
          rw [List.getLast?_append_cons, List.getLast?_cons_cons]
          exact ha
        · show ∀ a ∈ ((pre0 ++ [pd]) ++ b :: post2).head?, lookupA s'.prev a = some none
          intro a ha
          rw [List.head?_append_of_ne_nil _ (by simp)] at ha
          have hamem : a ∈ pre0 ++ [pd] := List.mem_of_mem_head? ha
          have hat : a ≠ t := fun hc => htnotpre (hc ▸ hamem)
          have hab : a ≠ b := by
            intro hc
            exact hpredisj a hamem (by simp [hc])
          rw [hprevkeep a hat hab]
          refine h.hphead a ?_
          rw [List.head?_append_of_ne_nil _ (by simp)]
          exact ha
        · show List.Chain' (fun a b2 => lookupA s'.prev b2 = some (some a))
            ((pre0 ++ [pd]) ++ b :: post2)
          rw [List.chain'_append]
          refine ⟨?_, ?_, ?_⟩
          · refine chain'_congr_mem hpchainpre ?_
            intro a _ b2 hb2 hr
            have hbt2 : b2 ≠ t := fun hc => htnotpre (hc ▸ hb2)
            have hbb : b2 ≠ b := by
              intro hc
              exact hpredisj b2 hb2 (by simp [hc])
            rw [hprevkeep b2 hbt2 hbb]
            exact hr
          · have hold : List.Chain' (fun a b2 => lookupA s.prev b2 = some (some a))
                (b :: post2) := (List.chain'_append.mp h.hpchain).2.1.tail
            refine chain'_congr_mem hold ?_
            intro a ha b2 hb2 hr
            have hd := hpostdisj b2 hb2
            by_cases hbb : b2 = b
            · have hpair : lookupA s.prev b2 = some (some t) := by
                have h0 := (List.chain'_append.mp h.hpchain).2.1
                rw [hbb]
                exact (List.chain'_cons.mp h0).1
              rw [hpair] at hr
              have hat2 : a = t := by simpa using hr.symm
              exact absurd ((hpostdisj a ha).1) (by simp [hat2])
            · rw [hprevkeep b2 hd.1 hbb]
              exact hr
          · intro x hx y hy
            have hxt : pd = x := by
              rw [hgl] at hx
              simpa using hx
            have hyb : b = y := by simpa using hy
            rw [← hxt, ← hyb]
            exact hprevb
        · show s'.tail = ((pre0 ++ [pd]) ++ b :: post2).getLast?
          have h1 : s'.tail = s.tail := by simp [hdefs]
          rw [h1, h.htail, List.getLast?_append_cons, List.getLast?_append_cons,
            List.getLast?_cons_cons]
        · show s'.size = ((pre0 ++ [pd]) ++ b :: post2).length
          have h1 := h.hsize
          simp only [hdefs, List.length_append, List.length_cons] at h1 ⊢
          omega
        · show ((pre0 ++ [pd]) ++ b :: post2).Nodup
          have hsub : ((pre0 ++ [pd]) ++ b :: post2).Sublist
              ((pre0 ++ [pd]) ++ t :: b :: post2) :=
            (List.sublist_cons_self t (b :: post2)).append_left (pre0 ++ [pd])
          exact hnd.sublist hsub
        · show ∀ j ∈ keysOf s'.prev, j ∈ (pre0 ++ [pd]) ++ b :: post2
          intro j hj
          have hj2 := (mem_keysOf_eraseA_iff _ t j hkndsetA).mp
            (by simpa [hdefs] using hj)
          rw [hksetA] at hj2
          have := h.hkeys j hj2.1
          rcases List.mem_append.mp this with hc | hc
          · exact List.mem_append_left _ hc
          · rcases List.mem_cons.mp hc with hc | hc
            · exact absurd hc hj2.2
            · exact List.mem_append_right _ hc
        · show (keysOf s'.prev).Nodup
          exact ((keysOf_eraseA_sublist _ t).nodup hkndsetA :)
        · show s'.prev.length = ((pre0 ++ [pd]) ++ b :: post2).length
          have h1 : (setA s.prev b (some pd)).length = s.prev.length :=
            length_setA_of_mem _ _ _ hbkey
          have h2 : t ∈ keysOf (setA s.prev b (some pd)) := by
            rw [hksetA]
            exact htkey
          have h3 := length_eraseA_of_mem _ t hkndsetA h2
          have h4 := h.hplen
          simp only [hdefs, List.length_append, List.length_cons] at h4 ⊢
          omega
        · show ∀ j ∈ keysOf s'.prev, j < s'.fresh
          intro j hj
          have hj1 : j ∈ keysOf (setA s.prev b (some pd)) :=
            mem_keysOf_eraseA _ t j (by simpa [hdefs] using hj)
          rw [hksetA] at hj1
          have := h.hfresh j hj1
          simpa [hdefs] using this
      · intro j hj
        rcases List.mem_append.mp hj with hjm | hjm
        · have hjt : j ≠ t := fun hc => htnotpre (hc ▸ hjm)
          by_cases hjpd : j = pd
          · subst hjpd
            simp [hdefs, heapGet, nodeGet_setA_ne _ _ _ _ hjt, nodeGet_setA_self]
          · rw [hheapkeep j hjt hjpd]
        · have hd := hpostdisj j hjm
          rw [hheapkeep j hd.1 hd.2]
      · show lookupA s'.prev t = none
        simp only [hdefs]
        exact lookupA_eraseA_self _ t hkndsetA

end Transport

section Preservation

open FastSLL

variable [Inhabited T]

theorem validate_error (s : FastSLL T) (p : Position)
    (h : lookupA s.prev p.node = none) : validate s p = .error () := by
  rw [validate, h]

theorem get_error (s : FastSLL T) (p : Position)
    (h : lookupA s.prev p.node = none) : get s p = .error () := by
  rw [FastSLL.get, validate_error s p h]

theorem next_error (s : FastSLL T) (p : Position)
    (h : lookupA s.prev p.node = none) : next s p = .error () := by
  rw [FastSLL.next, validate_error s p h]

theorem insert_after_error (s : FastSLL T) (p : Position) (v : T)
    (h : lookupA s.prev p.node = none) : insert_after s p v = .error () := by
  rw [insert_after, validate_error s p h]

theorem insert_before_error (s : FastSLL T) (p : Position) (v : T)
    (h : lookupA s.prev p.node = none) : insert_before s p v = .error () := by
  rw [insert_before, h]

theorem remove_error (s : FastSLL T) (p : Position)
    (h : lookupA s.prev p.node = none) : remove s p = .error () := by
  rw [remove, h]

/-- The cleared list represents the empty sequence. -/
theorem rep_clear (s : FastSLL T) : Rep (clear s) [] := by
  constructor <;> simp [clear, keysOf]

/-- The freshly constructed list represents the empty sequence. -/
theorem rep_empty : Rep (empty : FastSLL T) [] := by
  constructor <;> simp [empty, keysOf]

/-- A valid position's node id sits somewhere in the chain. -/
theorem rep_pos_mem {s : FastSLL T} {ids : List Nat} (h : Rep s ids)
    {pn : Nat} {w : Option Nat} (hl : lookupA s.prev pn = some w) :
    pn ∈ ids :=
  h.hkeys pn ((mem_keysOf_iff _ _).mpr (by rw [hl]; simp))

/-- Every public operation leads from a represented state to a represented
state: the five global invariants are preserved. -/
theorem rep_run {s : FastSLL T} {ids : List Nat} (h : Rep s ids) (op : Op T) :
    ∃ ids2, Rep (run s op) ids2 := by
  cases op with
  | appendOp v =>
      exact ⟨ids ++ [s.fresh], by simpa [run] using (rep_append h v).2.1⟩
  | prependOp v =>
      exact ⟨s.fresh :: ids, by simpa [run] using (rep_prepend h v).2.1⟩
  | insertAfterOp p v =>
      obtain ⟨pn⟩ := p
      cases hl : lookupA s.prev pn with
      | none =>
          refine ⟨ids, ?_⟩
          simp only [run, insert_after_error s ⟨pn⟩ v hl]
          exact h
      | some w =>
          obtain ⟨pre, post, hd⟩ := List.append_of_mem (rep_pos_mem h hl)
          subst hd
          obtain ⟨s', he1, he2, _⟩ := rep_insert_after h v
          refine ⟨pre ++ pn :: s.fresh :: post, ?_⟩
          simp only [run, he1]
          exact he2
  | insertBeforeOp p v =>
      obtain ⟨pn⟩ := p
      cases hl : lookupA s.prev pn with
      | none =>
          refine ⟨ids, ?_⟩
          simp only [run, insert_before_error s ⟨pn⟩ v hl]
          exact h
      | some w =>
          obtain ⟨pre, post, hd⟩ := List.append_of_mem (rep_pos_mem h hl)
          subst hd
          obtain ⟨s', he1, he2, _⟩ := rep_insert_before h v
          refine ⟨pre ++ s.fresh :: pn :: post, ?_⟩
          simp only [run, he1]
          exact he2
  | removeOp p =>
      obtain ⟨pn⟩ := p
      cases hl : lookupA s.prev pn with
      | none =>
          refine ⟨ids, ?_⟩
          simp only [run, remove_error s ⟨pn⟩ hl]
          exact h
      | some w =>
          obtain ⟨pre, post, hd⟩ := List.append_of_mem (rep_pos_mem h hl)
          subst hd
          obtain ⟨s', he1, he2, _⟩ := rep_remove h
          refine ⟨pre ++ post, ?_⟩
          simp only [run, he1]
          exact he2
  | getOp p => exact ⟨ids, by simpa [run] using h⟩
  | nextOp p => exact ⟨ids, by simpa [run] using h⟩
  | clearOp => exact ⟨[], by simpa [run] using rep_clear s⟩
  | firstOp => exact ⟨ids, by simpa [run] using h⟩
  | lastOp => exact ⟨ids, by simpa [run] using h⟩

/-- Invariant preservation along whole operation sequences. -/
theorem rep_runList {s : FastSLL T} {ids : List Nat} (h : Rep s ids)
    (ops : List (Op T)) : ∃ ids2, Rep (runList s ops) ids2 := by
  induction ops generalizing s ids with
  | nil => exact ⟨ids, h⟩
  | cons op rest ih =>
      obtain ⟨ids2, h2⟩ := rep_run h op
      exact ih h2

end Preservation

section Simulation

open FastSLL

variable [Inhabited T]

theorem take_len_append {α : Type} (A B : List α) : (A ++ B).take A.length = A := by
  induction A with
  | nil => simp
  | cons x A2 ih => simp [ih]

theorem drop_len_append {α : Type} (A B : List α) : (A ++ B).drop A.length = B := by
  induction A with
  | nil => simp
  | cons x A2 ih => simp [ih]

theorem get?_len_append {α : Type} (A B : List α) (a : α) :
    (A ++ a :: B).get? A.length = some a := by
  induction A with
  | nil => simp
  | cons x A2 ih => simpa using ih

theorem take_of_len_eq {α : Type} {A : List α} {k : Nat} (hA : A.length = k)
    (B : List α) : (A ++ B).take k = A := by
  rw [← hA, take_len_append]

theorem drop_of_len_eq {α : Type} {A : List α} {k : Nat} (hA : A.length = k)
    (B : List α) : (A ++ B).drop k = B := by
  rw [← hA, drop_len_append]

theorem get?_of_len_eq {α : Type} {A : List α} {k : Nat} (hA : A.length = k)
    (B : List α) (a : α) : (A ++ a :: B).get? k = some a := by
  rw [← hA, get?_len_append]

theorem decomp_at {α : Type} (l : List α) (k : Nat) (hk : k < l.length) :
    l = l.take k ++ l.get ⟨k, hk⟩ :: l.drop (k + 1) := by
  conv_lhs => rw [← List.take_append_drop k l]
  rw [List.drop_eq_getElem_cons hk]
  simp

theorem length_take_of_lt {α : Type} {l : List α} {k : Nat} (hk : k < l.length) :
    (l.take k).length = k := by
  simp [List.length_take]
  omega

/-- On a represented state the Position at logical index k is the k-th
chain node, and exists exactly when k is in range. -/
theorem rep_posAt {s : FastSLL T} {ids : List Nat} (h : Rep s ids) (k : Nat) :
    posAt s k = (ids.get? k).map Position.mk := by
  rw [posAt, rep_chainIds h]

/-- One step of the stress test preserves the representation, keeps the
iteration equal to the reference model, and reports the same value. -/
theorem runM_step {s : FastSLL T} {ids : List Nat} (h : Rep s ids)
    (op : MOp T) :
    ∃ ids2, Rep (runM s op).1 ids2 ∧
      values (runM s op).1 = (refRunM (values s) op).1 ∧
      (runM s op).2 = (refRunM (values s) op).2 := by
  have hvals : values s = ids.map (fun i => (heapGet s i).data) := rep_values h
  have hlen : (values s).length = ids.length := by
    rw [hvals]
    simp
  cases op with
  | appendOp x =>
      obtain ⟨_, h2, _, hdata, hnew⟩ := rep_append h x
      refine ⟨ids ++ [s.fresh], h2, ?_, by simp [runM, refRunM]⟩
      simp only [runM, refRunM]
      rw [rep_values h2, hvals]
      simp only [List.map_append]
      rw [List.map_congr_left hdata]
      simp [hnew]
  | prependOp x =>
      obtain ⟨_, h2, _, hdata, hnew⟩ := rep_prepend h x
      refine ⟨s.fresh :: ids, h2, ?_, by simp [runM, refRunM]⟩
      simp only [runM, refRunM]
      rw [rep_values h2, hvals]
      simp only [List.map_cons]
      rw [List.map_congr_left hdata]
      simp [hnew]
  | insertAfterOp k x =>
      by_cases hk : k < ids.length
      · have hkv : k < (values s).length := by
          rw [hlen]
          exact hk
        have hpos : posAt s k = some ⟨ids.get ⟨k, hk⟩⟩ := by
          rw [rep_posAt h, List.get?_eq_get hk]
          rfl
        set t := ids.get ⟨k, hk⟩ with hdeft
        have hdec : ids = ids.take k ++ t :: ids.drop (k + 1) := decomp_at ids k hk
        have hdh : Rep s (ids.take k ++ t :: ids.drop (k + 1)) := hdec ▸ h
        obtain ⟨s', he1, he2, _, hdata, hnew⟩ := rep_insert_after hdh x
        have hklen : (ids.take k).length = k := length_take_of_lt hk
        have hrun : runM s (MOp.insertAfterOp k x) = (s', none) := by
          simp only [runM, hpos, he1]
        have href : refRunM (values s) (MOp.insertAfterOp k x)
            = (refInsert (values s) (k + 1) x, none) := by
          simp only [refRunM]
          rw [if_pos hkv]
        have hmm : values s
            = (ids.take k).map (fun i => (heapGet s i).data)
              ++ (heapGet s t).data :: (ids.drop (k + 1)).map (fun i => (heapGet s i).data) := by
          rw [hvals]
          conv_lhs => rw [hdec]
          simp
        have hmk : ((ids.take k).map (fun i => (heapGet s i).data)).length = k := by
          rw [List.length_map]
          exact hklen
        have hstep : (ids.take k).map (fun i => (heapGet s i).data)
              ++ (heapGet s t).data :: (ids.drop (k + 1)).map (fun i => (heapGet s i).data)
            = ((ids.take k).map (fun i => (heapGet s i).data) ++ [(heapGet s t).data])
              ++ (ids.drop (k + 1)).map (fun i => (heapGet s i).data) := by
          simp
        have hl2 : ((ids.take k).map (fun i => (heapGet s i).data)
            ++ [(heapGet s t).data]).length = k + 1 := by
          rw [List.length_append, hmk]
          rfl
        refine ⟨ids.take k ++ t :: s.fresh :: ids.drop (k + 1), ?_, ?_, ?_⟩
        · rw [hrun]
          exact he2
        · rw [hrun, href]
          simp only
          rw [rep_values he2, refInsert, hmm, hstep, take_of_len_eq hl2,
            drop_of_len_eq hl2]
          simp only [List.map_append, List.map_cons]
          have hpre2 : ∀ i ∈ ids.take k, (heapGet s' i).data = (heapGet s i).data :=
            fun i hi => hdata i (List.mem_append_left _ hi)
          have hpost2 : ∀ i ∈ ids.drop (k + 1), (heapGet s' i).data = (heapGet s i).data :=
            fun i hi => hdata i (List.mem_append_right _ (List.mem_cons_of_mem t hi))
          have hdt : (heapGet s' t).data = (heapGet s t).data := hdata t (by simp)
          rw [List.map_congr_left hpre2, List.map_congr_left hpost2]
          simp [hdt, hnew]
        · rw [hrun, href]
      · have hpos : posAt s k = none := by
          rw [rep_posAt h]
          have hnone : ids.get? k = none := List.get?_eq_none.mpr (Nat.le_of_not_lt hk)
          rw [hnone]
          rfl
        have hk2 : ¬ k < (values s).length := by
          rw [hlen]
          exact hk
        refine ⟨ids, ?_, ?_, ?_⟩ <;> simp [runM, hpos, refRunM, hk2, h]
  | insertBeforeOp k x =>
      by_cases hk : k < ids.length
      · have hkv : k < (values s).length := by
          rw [hlen]
          exact hk
        have hpos : posAt s k = some ⟨ids.get ⟨k, hk⟩⟩ := by
          rw [rep_posAt h, List.get?_eq_get hk]
          rfl
        set t := ids.get ⟨k, hk⟩ with hdeft
        have hdec : ids = ids.take k ++ t :: ids.drop (k + 1) := decomp_at ids k hk
        have hdh : Rep s (ids.take k ++ t :: ids.drop (k + 1)) := hdec ▸ h
        obtain ⟨s', he1, he2, _, hdata, hnew⟩ := rep_insert_before hdh x
        have hklen : (ids.take k).length = k := length_take_of_lt hk
        have hrun : runM s (MOp.insertBeforeOp k x) = (s', none) := by
          simp only [runM, hpos, he1]
        have href : refRunM (values s) (MOp.insertBeforeOp k x)
            = (refInsert (values s) k x, none) := by
          simp only [refRunM]
          rw [if_pos hkv]
        have hmm : values s
            = (ids.take k).map (fun i => (heapGet s i).data)
              ++ (heapGet s t).data :: (ids.drop (k + 1)).map (fun i => (heapGet s i).data) := by
          rw [hvals]
          conv_lhs => rw [hdec]
          simp
        have hmk : ((ids.take k).map (fun i => (heapGet s i).data)).length = k := by
          rw [List.length_map]
          exact hklen
        refine ⟨ids.take k ++ s.fresh :: t :: ids.drop (k + 1), ?_, ?_, ?_⟩
        · rw [hrun]
          exact he2
        · rw [hrun, href]
          simp only
          rw [rep_values he2, refInsert, hmm, take_of_len_eq hmk, drop_of_len_eq hmk]
          simp only [List.map_append, List.map_cons]
          have hpre2 : ∀ i ∈ ids.take k, (heapGet s' i).data = (heapGet s i).data :=
            fun i hi => hdata i (List.mem_append_left _ hi)
          have hpost2 : ∀ i ∈ ids.drop (k + 1), (heapGet s' i).data = (heapGet s i).data :=
            fun i hi => hdata i (List.mem_append_right _ (List.mem_cons_of_mem t hi))
          have hdt : (heapGet s' t).data = (heapGet s t).data := hdata t (by simp)
          rw [List.map_congr_left hpre2, List.map_congr_left hpost2]
          simp [hdt, hnew]
        · rw [hrun, href]
      · have hpos : posAt s k = none := by
          rw [rep_posAt h]
          have hnone : ids.get? k = none := List.get?_eq_none.mpr (Nat.le_of_not_lt hk)
          rw [hnone]
          rfl
        have hk2 : ¬ k < (values s).length := by
          rw [hlen]
          exact hk
        refine ⟨ids, ?_, ?_, ?_⟩ <;> simp [runM, hpos, refRunM, hk2, h]
  | removeOp k =>
      by_cases hk : k < ids.length
      · have hkv : k < (values s).length := by
          rw [hlen]
          exact hk
        have hpos : posAt s k = some ⟨ids.get ⟨k, hk⟩⟩ := by
          rw [rep_posAt h, List.get?_eq_get hk]
          rfl
        set t := ids.get ⟨k, hk⟩ with hdeft
        have hdec : ids = ids.take k ++ t :: ids.drop (k + 1) := decomp_at ids k hk
        have hdh : Rep s (ids.take k ++ t :: ids.drop (k + 1)) := hdec ▸ h
        obtain ⟨s', he1, he2, _, hdata, _⟩ := rep_remove hdh
        have hklen : (ids.take k).length = k := length_take_of_lt hk
        have hrun : runM s (MOp.removeOp k) = (s', some (heapGet s t).data) := by
          simp only [runM, hpos, he1]
        have href : refRunM (values s) (MOp.removeOp k)
            = (refRemove (values s) k, (values s).get? k) := by
          simp only [refRunM]
          rw [if_pos hkv]
        have hmm : values s
            = (ids.take k).map (fun i => (heapGet s i).data)
              ++ (heapGet s t).data :: (ids.drop (k + 1)).map (fun i => (heapGet s i).data) := by
          rw [hvals]
          conv_lhs => rw [hdec]
          simp
        have hmk : ((ids.take k).map (fun i => (heapGet s i).data)).length = k := by
          rw [List.length_map]
          exact hklen
        have hstep : (ids.take k).map (fun i => (heapGet s i).data)
              ++ (heapGet s t).data :: (ids.drop (k + 1)).map (fun i => (heapGet s i).data)
            = ((ids.take k).map (fun i => (heapGet s i).data) ++ [(heapGet s t).data])
              ++ (ids.drop (k + 1)).map (fun i => (heapGet s i).data) := by
          simp
        have hl2 : ((ids.take k).map (fun i => (heapGet s i).data)
            ++ [(heapGet s t).data]).length = k + 1 := by
          rw [List.length_append, hmk]
          rfl
        refine ⟨ids.take k ++ ids.drop (k + 1), ?_, ?_, ?_⟩
        · rw [hrun]
          exact he2
        · rw [hrun, href]
          simp only
          rw [rep_values he2, refRemove, hmm, take_of_len_eq hmk, hstep,
            drop_of_len_eq hl2]
          simp only [List.map_append]
          have hpre2 : ∀ i ∈ ids.take k, (heapGet s' i).data = (heapGet s i).data :=
            fun i hi => hdata i (List.mem_append_left _ hi)
          have hpost2 : ∀ i ∈ ids.drop (k + 1), (heapGet s' i).data = (heapGet s i).data :=
            fun i hi => hdata i (List.mem_append_right _ hi)
          rw [List.map_congr_left hpre2, List.map_congr_left hpost2]
        · rw [hrun, href]
          simp only
          rw [hmm, get?_of_len_eq hmk]
      · have hpos : posAt s k = none := by
          rw [rep_posAt h]
          have hnone : ids.get? k = none := List.get?_eq_none.mpr (Nat.le_of_not_lt hk)
          rw [hnone]
          rfl
        have hk2 : ¬ k < (values s).length := by
          rw [hlen]
          exact hk
        refine ⟨ids, ?_, ?_, ?_⟩ <;> simp [runM, hpos, refRunM, hk2, h]
  | getOp k =>
      by_cases hk : k < ids.length
      · have hkv : k < (values s).length := by
          rw [hlen]
          exact hk
        have hpos : posAt s k = some ⟨ids.get ⟨k, hk⟩⟩ := by
          rw [rep_posAt h, List.get?_eq_get hk]
          rfl
        set t := ids.get ⟨k, hk⟩ with hdeft
        have hdec : ids = ids.take k ++ t :: ids.drop (k + 1) := decomp_at ids k hk
        have hdh : Rep s (ids.take k ++ t :: ids.drop (k + 1)) := hdec ▸ h
        have hval2 : lookupA s.prev t = some (ids.take k).getLast? :=
          rep_lookup_pred hdh
        have hget : get s ⟨t⟩ = .ok (heapGet s t).data := by
          rw [FastSLL.get, validate]
          rw [hval2]
        have hklen : (ids.take k).length = k := length_take_of_lt hk
        have hrun : runM s (MOp.getOp k) = (s, some (heapGet s t).data) := by
          simp only [runM, hpos, hget]
        have href : refRunM (values s) (MOp.getOp k)
            = (values s, (values s).get? k) := by
          simp only [refRunM]
          rw [if_pos hkv]
        have hmm : values s
            = (ids.take k).map (fun i => (heapGet s i).data)
              ++ (heapGet s t).data :: (ids.drop (k + 1)).map (fun i => (heapGet s i).data) := by
          rw [hvals]
          conv_lhs => rw [hdec]
          simp
        have hmk : ((ids.take k).map (fun i => (heapGet s i).data)).length = k := by
          rw [List.length_map]
          exact hklen
        refine ⟨ids, ?_, ?_, ?_⟩
        · rw [hrun]
          exact h
        · rw [hrun, href]
        · rw [hrun, href]
          simp only
          rw [hmm, get?_of_len_eq hmk]
      · have hpos : posAt s k = none := by
          rw [rep_posAt h]
          have hnone : ids.get? k = none := List.get?_eq_none.mpr (Nat.le_of_not_lt hk)
          rw [hnone]
          rfl
        have hk2 : ¬ k < (values s).length := by
          rw [hlen]
          exact hk
        refine ⟨ids, ?_, ?_, ?_⟩ <;> simp [runM, hpos, refRunM, hk2, h]

/-- The whole stress test run stays in lockstep with the reference model. -/
theorem runMList_sim {s : FastSLL T} {ids : List Nat} (h : Rep s ids)
    (ops : List (MOp T)) :
    values (runMList s ops).1 = (refRunMList (values s) ops).1 ∧
    (runMList s ops).2 = (refRunMList (values s) ops).2 := by
  induction ops generalizing s ids with
  | nil => simp [runMList, refRunMList]
  | cons op rest ih =>
      obtain ⟨ids2, h2, hv, ho⟩ := runM_step h op
      have hrest := ih h2
      simp only [runMList, refRunMList]
      rw [← hv]
      exact ⟨hrest.1, by rw [ho, hrest.2]⟩

end Simulation

section Staleness

open FastSLL

variable [Inhabited T]

/-- Like rep_run, but also recording that every id of the new chain is an
old chain id or the old fresh id, and that fresh never decreases. -/
theorem rep_run_facts {s : FastSLL T} {ids : List Nat} (h : Rep s ids)
    (op : Op T) :
    ∃ ids2, Rep (run s op) ids2 ∧
      (∀ i ∈ ids2, i ∈ ids ∨ i = s.fresh) ∧
      s.fresh ≤ (run s op).fresh := by
  cases op with
  | appendOp v =>
      obtain ⟨_, h2, h3, _⟩ := rep_append h v
      refine ⟨ids ++ [s.fresh], by simpa [run] using h2, ?_, ?_⟩
      · intro i hi
        simpa using List.mem_append.mp hi
      · simp only [run]
        omega
  | prependOp v =>
      obtain ⟨_, h2, h3, _⟩ := rep_prepend h v
      refine ⟨s.fresh :: ids, by simpa [run] using h2, ?_, ?_⟩
      · intro i hi
        rcases List.mem_cons.mp hi with hi | hi
        · exact Or.inr hi
        · exact Or.inl hi
      · simp only [run]
        omega
  | insertAfterOp p v =>
      obtain ⟨pn⟩ := p
      cases hl : lookupA s.prev pn with
      | none =>
          refine ⟨ids, ?_, fun i hi => Or.inl hi, ?_⟩ <;>
            simp only [run, insert_after_error s ⟨pn⟩ v hl]
          · exact h
          · exact le_refl _
      | some w =>
          obtain ⟨pre, post, hd⟩ := List.append_of_mem (rep_pos_mem h hl)
          subst hd
          obtain ⟨s', he1, he2, he3, _⟩ := rep_insert_after h v
          refine ⟨pre ++ pn :: s.fresh :: post, ?_, ?_, ?_⟩
          · simp only [run, he1]
            exact he2
          · intro i hi
            simp only [List.mem_append, List.mem_cons] at hi ⊢
            tauto
          · simp only [run, he1, he3]
            omega
  | insertBeforeOp p v =>
      obtain ⟨pn⟩ := p
      cases hl : lookupA s.prev pn with
      | none =>
          refine ⟨ids, ?_, fun i hi => Or.inl hi, ?_⟩ <;>
            simp only [run, insert_before_error s ⟨pn⟩ v hl]
          · exact h
          · exact le_refl _
      | some w =>
          obtain ⟨pre, post, hd⟩ := List.append_of_mem (rep_pos_mem h hl)
          subst hd
          obtain ⟨s', he1, he2, he3, _⟩ := rep_insert_before h v
          refine ⟨pre ++ s.fresh :: pn :: post, ?_, ?_, ?_⟩
          · simp only [run, he1]
            exact he2
          · intro i hi
            simp only [List.mem_append, List.mem_cons] at hi ⊢
            tauto
          · simp only [run, he1, he3]
            omega
  | removeOp p =>
      obtain ⟨pn⟩ := p
      cases hl : lookupA s.prev pn with
      | none =>
          refine ⟨ids, ?_, fun i hi => Or.inl hi, ?_⟩ <;>
            simp only [run, remove_error s ⟨pn⟩ hl]
          · exact h
          · exact le_refl _
      | some w =>
          obtain ⟨pre, post, hd⟩ := List.append_of_mem (rep_pos_mem h hl)
          subst hd
          obtain ⟨s', he1, he2, he3, _⟩ := rep_remove h
          refine ⟨pre ++ post, ?_, ?_, ?_⟩
          · simp only [run, he1]
            exact he2
          · intro i hi
            simp only [List.mem_append, List.mem_cons] at hi ⊢
            tauto
          · simp only [run, he1, he3]
            exact le_refl _
  | getOp p => exact ⟨ids, by simpa [run] using h, fun i hi => Or.inl hi, le_refl _⟩
  | nextOp p => exact ⟨ids, by simpa [run] using h, fun i hi => Or.inl hi, le_refl _⟩
  | clearOp =>
      refine ⟨[], by simpa [run] using rep_clear s, by simp, ?_⟩
      simp [run, clear]
  | firstOp => exact ⟨ids, by simpa [run] using h, fun i hi => Or.inl hi, le_refl _⟩
  | lastOp => exact ⟨ids, by simpa [run] using h, fun i hi => Or.inl hi, le_refl _⟩

/-- A stale id (absent from the index, allocated below fresh) can never
re-enter the index: every new index key is either a surviving chain node or
a freshly allocated id, and ids are never reused. -/
theorem stale_runList {s : FastSLL T} {ids : List Nat} (h : Rep s ids)
    {j : Nat} (hs1 : lookupA s.prev j = none) (hs2 : j < s.fresh)
    (ops : List (Op T)) : lookupA (runList s ops).prev j = none := by
  induction ops generalizing s ids with
  | nil => exact hs1
  | cons op rest ih =>
      obtain ⟨ids2, h2, hsub, hfr⟩ := rep_run_facts h op
      have hjnotids : j ∉ ids := by
        intro hc
        exact rep_mem_lookup h hc hs1
      have hs1' : lookupA (run s op).prev j = none := by
        by_contra hc
        have hjk : j ∈ keysOf (run s op).prev := (mem_keysOf_iff _ _).mpr hc
        have hj2 : j ∈ ids2 := h2.hkeys j hjk
        rcases hsub j hj2 with hj3 | hj3
        · exact hjnotids hj3
        · omega
      have hs2' : j < (run s op).fresh := lt_of_lt_of_le hs2 hfr
      exact ih h2 hs1' hs2'

end Staleness

section Claims

open FastSLL

/-- The two-element list built by append 10; append 20, represented by the
chain of ids 0 and 1 (used by concrete witnesses). -/
theorem rep_pair :
    Rep ((FastSLL.append (FastSLL.append (FastSLL.empty : FastSLL Nat) 10).2 20).2)
      [0, 1] := by
  have h1 := (rep_append (rep_empty (T := Nat)) 10).2.1
  have h2 := (rep_append h1 20).2.1
  exact h2

/-- C1: starting from the empty list, after every sequence of public
operations (append, prepend, insert_after, insert_before, remove, clear,
get, next, first, last) the five global invariants hold: some chain of
node ids witnesses head-to-tail next-consistency in exactly size steps
with the tail's next none (invariants 1 and 5, fields hhead, hchain,
hlast, htail, hsize, hnodup of Rep), the predecessor index maps every
reachable node to its chain predecessor with none for the head (invariant
2, fields hphead, hpchain), and size equals the number of index entries
and of reachable nodes (invariant 3, fields hsize, hplen, hkeys); the
size-zero consequence (invariant 4) is recorded explicitly. -/
theorem invariant_closure_all_sequences (T : Type) [Inhabited T]
    (ops : List (Op T)) :
    InvariantHolds (runList (FastSLL.empty : FastSLL T) ops) ∧
    ((runList (FastSLL.empty : FastSLL T) ops).size = 0 →
      (runList (FastSLL.empty : FastSLL T) ops).head = none ∧
      (runList (FastSLL.empty : FastSLL T) ops).tail = none ∧
      (runList (FastSLL.empty : FastSLL T) ops).prev = []) := by
  obtain ⟨ids, h⟩ := rep_runList rep_empty ops
  refine ⟨⟨ids, h⟩, ?_⟩
  intro hsz
  have hids : ids = [] := by
    refine List.eq_nil_of_length_eq_zero ?_
    rw [← h.hsize]
    exact hsz
  subst hids
  refine ⟨by simpa using h.hhead, by simpa using h.htail, ?_⟩
  exact List.eq_nil_of_length_eq_zero (by simpa using h.hplen)

/-- C1 witness: after appending 3 and removing it again the invariants
hold and the size-zero consequence applies concretely. -/
theorem invariant_closure_all_sequences_witness :
    InvariantHolds (runList (FastSLL.empty : FastSLL Nat)
      [Op.appendOp 3, Op.removeOp ⟨0⟩]) ∧
    (runList (FastSLL.empty : FastSLL Nat)
      [Op.appendOp 3, Op.removeOp ⟨0⟩]).head = none ∧
    (runList (FastSLL.empty : FastSLL Nat)
      [Op.appendOp 3, Op.removeOp ⟨0⟩]).tail = none ∧
    (runList (FastSLL.empty : FastSLL Nat)
      [Op.appendOp 3, Op.removeOp ⟨0⟩]).prev = [] :=
  ⟨(invariant_closure_all_sequences Nat [Op.appendOp 3, Op.removeOp ⟨0⟩]).1,
    (invariant_closure_all_sequences Nat [Op.appendOp 3, Op.removeOp ⟨0⟩]).2 rfl⟩

/-- C2: every sequence of append / prepend / insert_after / insert_before /
remove / get operations, mirrored against the array-backed reference model
at matching logical indices (the Position for index k being the k-th chain
node, as the stress test keeps in ref_pos), leaves value_iterator equal to
the reference model's contents, remove returning the element the model pops
at that index and get returning the model's element there.  Quantifying
over all sequences covers the state after every step of any sequence. -/
theorem reference_model_equivalence (T : Type) [Inhabited T]
    (ops : List (MOp T)) :
    values (runMList (FastSLL.empty : FastSLL T) ops).1
      = (refRunMList ([] : List T) ops).1 ∧
    (runMList (FastSLL.empty : FastSLL T) ops).2
      = (refRunMList ([] : List T) ops).2 := by
  have h := runMList_sim (rep_empty (T := T)) ops
  have hv : values (FastSLL.empty : FastSLL T) = [] := rfl
  rw [hv] at h
  exact h

/-- C3: on an invariant-satisfying list, once remove(p) succeeds, every
later call of get, remove, insert_after, insert_before or next with p
fails with InvalidPosition, after any further sequence of public
operations: p's id leaves the index and, since ids are allocated
monotonically and never reused (modelling CPython identity of live
objects, the Position itself keeping its node alive), it can never
re-enter it. -/
theorem removed_position_stays_stale (T : Type) [Inhabited T]
    (s : FastSLL T) (p : Position) (v : T) (s' : FastSLL T)
    (hinv : InvariantHolds s) (hrem : remove s p = .ok (v, s'))
    (ops : List (Op T)) (x : T) :
    get (runList s' ops) p = .error () ∧
    remove (runList s' ops) p = .error () ∧
    insert_after (runList s' ops) p x = .error () ∧
    insert_before (runList s' ops) p x = .error () ∧
    next (runList s' ops) p = .error () := by
  obtain ⟨ids, h⟩ := hinv
  obtain ⟨pn⟩ := p
  cases hl : lookupA s.prev pn with
  | none =>
      rw [remove_error s ⟨pn⟩ hl] at hrem
      exact absurd hrem (by simp)
  | some w =>
      have hmem : pn ∈ ids := rep_pos_mem h hl
      have hlt : pn < s.fresh := rep_mem_lt_fresh h hmem
      obtain ⟨pre, post, hd⟩ := List.append_of_mem hmem
      subst hd
      obtain ⟨s2, he1, he2, hfr, _, hstale⟩ := rep_remove h
      rw [he1] at hrem
      have hpair := Except.ok.inj hrem
      have hs2 : s2 = s' := congrArg Prod.snd hpair
      subst hs2
      have hlt2 : pn < s2.fresh := by
        rw [hfr]
        exact hlt
      have hfinal : lookupA (runList s2 ops).prev pn = none :=
        stale_runList he2 hstale hlt2 ops
      exact ⟨get_error _ _ hfinal, remove_error _ _ hfinal,
        insert_after_error _ _ x hfinal, insert_before_error _ _ x hfinal,
        next_error _ _ hfinal⟩

/-- C3 witness: on the concrete list [10, 20], after removing the head
position, get / remove / insert_after / insert_before / next with that
position all fail even after further appends and prepends. -/
theorem removed_position_stays_stale_witness :
    get (runList
        (⟨[(0, ⟨10, none⟩), (1, ⟨20, none⟩)], some 1, some 1,
          [(1, none)], 1, 2⟩ : FastSLL Nat)
        [Op.appendOp 5, Op.prependOp 6]) ⟨0⟩ = .error () ∧
    remove (runList
        (⟨[(0, ⟨10, none⟩), (1, ⟨20, none⟩)], some 1, some 1,
          [(1, none)], 1, 2⟩ : FastSLL Nat)
        [Op.appendOp 5, Op.prependOp 6]) ⟨0⟩ = .error () ∧
    insert_after (runList
        (⟨[(0, ⟨10, none⟩), (1, ⟨20, none⟩)], some 1, some 1,
          [(1, none)], 1, 2⟩ : FastSLL Nat)
        [Op.appendOp 5, Op.prependOp 6]) ⟨0⟩ 7 = .error () ∧
    insert_before (runList
        (⟨[(0, ⟨10, none⟩), (1, ⟨20, none⟩)], some 1, some 1,
          [(1, none)], 1, 2⟩ : FastSLL Nat)
        [Op.appendOp 5, Op.prependOp 6]) ⟨0⟩ 7 = .error () ∧
    next (runList
        (⟨[(0, ⟨10, none⟩), (1, ⟨20, none⟩)], some 1, some 1,
          [(1, none)], 1, 2⟩ : FastSLL Nat)
        [Op.appendOp 5, Op.prependOp 6]) ⟨0⟩ = .error () :=
  removed_position_stays_stale Nat
    ((FastSLL.append (FastSLL.append (FastSLL.empty : FastSLL Nat) 10).2 20).2)
    ⟨0⟩ 10
    (⟨[(0, ⟨10, none⟩), (1, ⟨20, none⟩)], some 1, some 1,
      [(1, none)], 1, 2⟩ : FastSLL Nat)
    ⟨[0, 1], rep_pair⟩ rfl [Op.appendOp 5, Op.prependOp 6] 7

/-- C4: whenever one of the validating operations is handed a Position
whose node is not a key of the predecessor index (foreign or stale), the
operation fails with InvalidPosition and the state after the call is
exactly the state before it: validation runs strictly before any
mutation. -/
theorem failed_validation_leaves_state_unchanged (T : Type) [Inhabited T]
    (s : FastSLL T) (p : Position) (v : T)
    (h : lookupA s.prev p.node = none) :
    get s p = .error () ∧ next s p = .error () ∧
    insert_after s p v = .error () ∧ insert_before s p v = .error () ∧
    remove s p = .error () ∧
    run s (Op.getOp p) = s ∧ run s (Op.nextOp p) = s ∧
    run s (Op.insertAfterOp p v) = s ∧ run s (Op.insertBeforeOp p v) = s ∧
    run s (Op.removeOp p) = s := by
  refine ⟨get_error s p h, next_error s p h, insert_after_error s p v h,
    insert_before_error s p v h, remove_error s p h, rfl, rfl, ?_, ?_, ?_⟩
  · simp only [run, insert_after_error s p v h]
  · simp only [run, insert_before_error s p v h]
  · simp only [run, remove_error s p h]

/-- C4 witness: a foreign Position on the concrete list [10, 20] is
rejected by all five validating operations with the state unchanged. -/
theorem failed_validation_leaves_state_unchanged_witness :
    get ((FastSLL.append (FastSLL.append (FastSLL.empty : FastSLL Nat) 10).2 20).2)
      ⟨99⟩ = .error () ∧
    next ((FastSLL.append (FastSLL.append (FastSLL.empty : FastSLL Nat) 10).2 20).2)
      ⟨99⟩ = .error () ∧
    insert_after ((FastSLL.append (FastSLL.append (FastSLL.empty : FastSLL Nat) 10).2 20).2)
      ⟨99⟩ 3 = .error () ∧
    insert_before ((FastSLL.append (FastSLL.append (FastSLL.empty : FastSLL Nat) 10).2 20).2)
      ⟨99⟩ 3 = .error () ∧
    remove ((FastSLL.append (FastSLL.append (FastSLL.empty : FastSLL Nat) 10).2 20).2)
      ⟨99⟩ = .error () ∧
    run ((FastSLL.append (FastSLL.append (FastSLL.empty : FastSLL Nat) 10).2 20).2)
      (Op.getOp ⟨99⟩)
      = ((FastSLL.append (FastSLL.append (FastSLL.empty : FastSLL Nat) 10).2 20).2) ∧
    run ((FastSLL.append (FastSLL.append (FastSLL.empty : FastSLL Nat) 10).2 20).2)
      (Op.nextOp ⟨99⟩)
      = ((FastSLL.append (FastSLL.append (FastSLL.empty : FastSLL Nat) 10).2 20).2) ∧
    run ((FastSLL.append (FastSLL.append (FastSLL.empty : FastSLL Nat) 10).2 20).2)
      (Op.insertAfterOp ⟨99⟩ 3)
      = ((FastSLL.append (FastSLL.append (FastSLL.empty : FastSLL Nat) 10).2 20).2) ∧
    run ((FastSLL.append (FastSLL.append (FastSLL.empty : FastSLL Nat) 10).2 20).2)
      (Op.insertBeforeOp ⟨99⟩ 3)
      = ((FastSLL.append (FastSLL.append (FastSLL.empty : FastSLL Nat) 10).2 20).2) ∧
    run ((FastSLL.append (FastSLL.append (FastSLL.empty : FastSLL Nat) 10).2 20).2)
      (Op.removeOp ⟨99⟩)
      = ((FastSLL.append (FastSLL.append (FastSLL.empty : FastSLL Nat) 10).2 20).2) :=
  failed_validation_leaves_state_unchanged Nat
    ((FastSLL.append (FastSLL.append (FastSLL.empty : FastSLL Nat) 10).2 20).2)
    ⟨99⟩ 3 rfl

/-- C5: on an invariant-satisfying list, inserting x after a valid
Position and then removing the returned Position yields back x and
restores the element sequence produced by value_iterator to exactly the
pre-insertion sequence. -/
theorem insert_after_then_remove_restores (T : Type) [Inhabited T]
    (s : FastSLL T) (p : Position) (x : T) (q : Position) (s₁ : FastSLL T)
    (hinv : InvariantHolds s) (hvalid : lookupA s.prev p.node ≠ none)
    (hins : insert_after s p x = .ok (q, s₁)) :
    ∃ s₂, remove s₁ q = .ok (x, s₂) ∧ values s₂ = values s := by
  obtain ⟨ids, h⟩ := hinv
  obtain ⟨pn⟩ := p
  cases hl : lookupA s.prev pn with
  | none => exact absurd hl hvalid
  | some w =>
      obtain ⟨pre, post, hd⟩ := List.append_of_mem (rep_pos_mem h hl)
      subst hd
      obtain ⟨s', he1, he2, hfr, hdata, hnew⟩ := rep_insert_after h x
      rw [he1] at hins
      have hpair := Except.ok.inj hins
      have hq : (⟨s.fresh⟩ : Position) = q := congrArg Prod.fst hpair
      have hs1 : s' = s₁ := congrArg Prod.snd hpair
      subst hq
      subst hs1
      have he2' : Rep s' ((pre ++ [pn]) ++ s.fresh :: post) := by
        have hassoc : (pre ++ [pn]) ++ s.fresh :: post
            = pre ++ pn :: s.fresh :: post := by
          simp
        rw [hassoc]
        exact he2
      obtain ⟨s₂, hr1, hr2, _, hrdata, _⟩ := rep_remove he2'
      rw [hnew] at hr1
      refine ⟨s₂, hr1, ?_⟩
      rw [rep_values hr2, rep_values h]
      have hassoc2 : (pre ++ [pn]) ++ post = pre ++ pn :: post := by simp
      rw [hassoc2]
      refine List.map_congr_left ?_
      intro i hi
      have hi1 : i ∈ (pre ++ [pn]) ++ post := by
        rw [hassoc2]
        exact hi
      have hstep1 : (heapGet s₂ i).data = (heapGet s' i).data := hrdata i hi1
      have hstep2 : (heapGet s' i).data = (heapGet s i).data := hdata i hi
      rw [hstep1, hstep2]

/-- C5 witness: on the concrete list [10, 20], inserting 7 after the head
position and removing the returned position gives back 7 and restores the
iteration to [10, 20]. -/
theorem insert_after_then_remove_restores_witness :
    ∃ s₂, remove
        (⟨[(0, ⟨10, some 2⟩), (1, ⟨20, none⟩), (2, ⟨7, some 1⟩)],
          some 0, some 1, [(0, none), (1, some 2), (2, some 0)], 3, 3⟩ : FastSLL Nat)
        ⟨2⟩ = .ok (7, s₂) ∧
      values s₂ = values
        ((FastSLL.append (FastSLL.append (FastSLL.empty : FastSLL Nat) 10).2 20).2) :=
  insert_after_then_remove_restores Nat
    ((FastSLL.append (FastSLL.append (FastSLL.empty : FastSLL Nat) 10).2 20).2)
    ⟨0⟩ 7 ⟨2⟩
    (⟨[(0, ⟨10, some 2⟩), (1, ⟨20, none⟩), (2, ⟨7, some 1⟩)],
      some 0, some 1, [(0, none), (1, some 2), (2, some 0)], 3, 3⟩ : FastSLL Nat)
    ⟨[0, 1], rep_pair⟩ (by decide) rfl

/-- C6: insert_before on a valid Position whose node is the head of a
non-empty list (its predecessor-index entry is none) returns exactly what
prepend returns on that state, both the resulting list state and the
returned Position: the source delegates to prepend in that case. -/
theorem insert_before_head_is_prepend (T : Type) [Inhabited T]
    (s : FastSLL T) (p : Position) (v : T)
    (hhead : s.head = some p.node)
    (hpred : lookupA s.prev p.node = some none) :
    insert_before s p v = .ok (prepend s v) := by
  rw [insert_before]
  rw [hpred]

/-- C6 witness: on the concrete list [10, 20], insert_before at the head
position returns exactly the prepend result. -/
theorem insert_before_head_is_prepend_witness :
    insert_before
      ((FastSLL.append (FastSLL.append (FastSLL.empty : FastSLL Nat) 10).2 20).2)
      ⟨0⟩ 5
      = .ok (prepend ((FastSLL.append (FastSLL.append (FastSLL.empty : FastSLL Nat) 10).2 20).2) 5) :=
  insert_before_head_is_prepend Nat
    ((FastSLL.append (FastSLL.append (FastSLL.empty : FastSLL Nat) 10).2 20).2)
    ⟨0⟩ 5 rfl rfl

/-- C7: Positions are equal exactly when they reference the same node
(Python dataclass equality on the wrapped node reference, which compares
by object identity): Positions of the same node are equal, and Positions
of distinct nodes are unequal even when the two nodes store equal data. -/
theorem position_equality_is_node_identity :
    (∀ p q : Position, p = q ↔ p.node = q.node) ∧
    (∀ (s : FastSLL Nat) (i j : Nat), i ≠ j →
      (heapGet s i).data = (heapGet s j).data →
      (⟨i⟩ : Position) ≠ (⟨j⟩ : Position)) := by
  constructor
  · intro p q
    obtain ⟨pn⟩ := p
    obtain ⟨qn⟩ := q
    constructor
    · intro hpq
      injection hpq
    · intro hpq
      simp only at hpq
      rw [hpq]
  · intro s i j hij _ hc
    injection hc with hc2
    exact hij hc2

/-- C7 witness: the Positions of nodes 0 and 1 of the empty heap, whose
stored data are equal, are unequal. -/
theorem position_equality_is_node_identity_witness :
    (⟨0⟩ : Position) ≠ (⟨1⟩ : Position) :=
  position_equality_is_node_identity.2 (FastSLL.empty : FastSLL Nat) 0 1
    (by decide) rfl

/-- C8: for every list state, of any length, a single get, insert_after,
insert_before or remove performs at most four predecessor-index accesses
(membership tests, reads, writes, deletes, as CountingDict counts them)
and touches at most four nodes; the bound is a literal constant, so it is
independent of the list length. -/
theorem operations_cost_constant (T : Type) [Inhabited T]
    (s : FastSLL T) (p : Position) :
    getIndexOps s p ≤ 4 ∧ insertAfterIndexOps s p ≤ 4 ∧
    insertBeforeIndexOps s p ≤ 4 ∧ removeIndexOps s p ≤ 4 ∧
    getNodeTouches s p ≤ 4 ∧ insertAfterNodeTouches s p ≤ 4 ∧
    insertBeforeNodeTouches s p ≤ 4 ∧ removeNodeTouches s p ≤ 4 := by
  refine ⟨by simp [getIndexOps], ?_, ?_, ?_, by simp [getNodeTouches], ?_, ?_, ?_⟩
  · cases hl : lookupA s.prev p.node with
    | none => simp [insertAfterIndexOps, hl]
    | some w =>
        cases hn : (heapGet s p.node).next <;>
          simp [insertAfterIndexOps, hl, hn]
  · cases hl : lookupA s.prev p.node with
    | none => simp [insertBeforeIndexOps, hl]
    | some w =>
        cases w with
        | none =>
            cases hh : s.head <;>
              simp [insertBeforeIndexOps, prependIndexOps, hl, hh]
        | some pd => simp [insertBeforeIndexOps, hl]
  · cases hl : lookupA s.prev p.node with
    | none => simp [removeIndexOps, hl]
    | some w =>
        cases hn : (heapGet s p.node).next <;>
          simp [removeIndexOps, hl, hn]
  · cases hl : lookupA s.prev p.node with
    | none => simp [insertAfterNodeTouches, hl]
    | some w => simp [insertAfterNodeTouches, hl]
  · cases hl : lookupA s.prev p.node with
    | none => simp [insertBeforeNodeTouches, hl]
    | some w => cases w <;> simp [insertBeforeNodeTouches, hl]
  · cases hl : lookupA s.prev p.node with
    | none => simp [removeNodeTouches, hl]
    | some w => cases w <;> simp [removeNodeTouches, hl]

/-- C9: clear empties the predecessor index that validation consults, so
after clear every Position whatsoever (in particular every Position
obtained from the list before the call) is rejected with InvalidPosition
by get, next, insert_after, insert_before and remove. -/
theorem clear_invalidates_all_positions (T : Type) [Inhabited T]
    (s : FastSLL T) (p : Position) (v : T) :
    get (clear s) p = .error () ∧ next (clear s) p = .error () ∧
    insert_after (clear s) p v = .error () ∧
    insert_before (clear s) p v = .error () ∧
    remove (clear s) p = .error () := by
  have h : lookupA (clear s).prev p.node = none := rfl
  exact ⟨get_error _ _ h, next_error _ _ h, insert_after_error _ _ v h,
    insert_before_error _ _ v h, remove_error _ _ h⟩

/-- C10: a successful remove leaves the removed node with next none (the
source nulls target.next just before returning target.data), so the
detached cell keeps no link into the remaining chain, and the returned
element is the removed node's stored data. -/
theorem remove_detaches_node (T : Type) [Inhabited T]
    (s : FastSLL T) (p : Position) (v : T) (s' : FastSLL T)
    (h : remove s p = .ok (v, s')) :
    (heapGet s' p.node).next = none ∧ v = (heapGet s p.node).data := by
  obtain ⟨pn⟩ := p
  cases hl : lookupA s.prev pn with
  | none =>
      rw [remove_error s ⟨pn⟩ hl] at h
      exact absurd h (by simp)
  | some w =>
      simp only [remove, hl] at h
      have hpair := Except.ok.inj h
      obtain ⟨hv, hs2⟩ := Prod.mk.injEq .. ▸ hpair
      refine ⟨?_, hv.symm⟩
      rw [← hs2]
      simp [heapGet, nodeGet, lookupA_setA_self]

/-- C10 witness: removing the only node of the concrete list [10] returns
10 and leaves the detached node with next none. -/
theorem remove_detaches_node_witness :
    (heapGet (⟨[(0, ⟨10, none⟩)], none, none, [], 0, 1⟩ : FastSLL Nat) 0).next
      = none ∧
    (10 : Nat) = (heapGet (FastSLL.append (FastSLL.empty : FastSLL Nat) 10).2 0).data :=
  remove_detaches_node Nat (FastSLL.append (FastSLL.empty : FastSLL Nat) 10).2
    ⟨0⟩ 10 (⟨[(0, ⟨10, none⟩)], none, none, [], 0, 1⟩ : FastSLL Nat) rfl

end Claims

end FastSLLSpec
